import Mathlib

/-!
Coin session and dispense controller
====================================

A shallow embedding of the controller firmware: the coin-acceptor interrupt
(`isrAcceptor`), the command callback (`CmdCallbacks::onWrite`), the
notification helpers and the time-based payout (`handlePayout`), with the
constants of `config.h`.

Conventions of the embedding.

* Machine integers are natural numbers, reduced modulo `2 ^ 16` or `2 ^ 32`
  wherever the C++ type wraps.
* The globals touched by the embedded functions form the record `Ctlr`.
  Every externally visible action (relay pin write, BLE notification, bytes
  on the printer UART, printer-library job, `delay`) is appended, in program
  order, to the field `out`.
* Output on the USB debug console (`Serial`) is diagnostic logging and is not
  recorded.
* `micros()` is a parameter of `isrAcceptor`.  `millis()` reads the field
  `nowMs`; `delay ms` advances it by `ms` (modulo `2 ^ 32`).  Interrupts that
  arrive while `handlePayout` waits are not interleaved with it.
* The busy-wait loop of `handlePayout` is iterated with explicit fuel, so the
  functions that reach it return an `Option`.
* Single-precision floating point is modelled exactly (round to nearest, ties
  to even, 24-bit significand) for non-negative values in the normal range:
  `f32Round`, `F32.div`, `F32.mul`.  The definitions `roundAtNat`,
  `roundHint` and `durationMsHint` compute the same values in an order that
  suits evaluation; they are proved equal to the model before they are used.
-/

namespace CoinCtlr

/-! ## Constants of `config.h` -/

def COIN_ACCEPTOR_DEBOUNCE_US : Nat := 20000
def CMD_START_SESSION : Nat := 0x01
def CMD_PAYOUT : Nat := 0x02
def CMD_PRINT_RECEIPT : Nat := 0x03
def CMD_DEBUG_PRINTER : Nat := 0x04
def EVT_PAYOUT_DONE : Nat := 0x10
def PRINTER_UART_BAUD : Nat := 115200

/-! ## Effects and controller state -/

/-- One call in a `printer->text()->...->print()` chain of the printer library. -/
inductive LibCall where
  | align (center : Bool)
  | bold (enable : Bool)
  | utf8_text (bytes : List Nat)
  | newline
  | feed_lines (n : Nat)
  | print
  deriving DecidableEq

/-- Externally visible actions, in the order the program performs them. -/
inductive Effect where
  /-- The call `digitalWrite(PIN_DISPENSE_RELAY, HIGH / LOW)`. -/
  | relay (high : Bool)
  /-- The call `delay(ms)`. -/
  | delay (ms : Nat)
  /-- The calls `coinChar->setValue(buf, 2); coinChar->notify()`. -/
  | coinNotify (bytes : List Nat)
  /-- The calls `statusChar->setValue(payload, 3); statusChar->notify()`. -/
  | statusNotify (bytes : List Nat)
  /-- A `Serial2.print` or `Serial2.write` of the given bytes. -/
  | uartSend (bytes : List Nat)
  /-- The call `Serial2.flush()`. -/
  | uartFlush
  /-- The call `Serial2.end()`. -/
  | uartEnd
  /-- The call `Serial2.begin(baud, ...)`. -/
  | uartBegin (baud : Nat)
  /-- A chain of printer-library calls. -/
  | libJob (calls : List LibCall)
  deriving DecidableEq

/-- The globals of the firmware that the embedded functions read or write. -/
structure Ctlr where
  /-- The global `volatile uint16_t coinTotal`. -/
  coinTotal : Nat
  /-- The global `volatile uint32_t lastAcceptorUs`. -/
  lastAcceptorUs : Nat
  /-- Level last written to `PIN_DISPENSE_RELAY` (`true` = HIGH = running) -/
  relayHigh : Bool
  /-- The value `millis()` returns. -/
  nowMs : Nat
  /-- Whether `coinChar != nullptr`. -/
  coinChar : Bool
  /-- Whether `statusChar != nullptr`. -/
  statusChar : Bool
  /-- Whether `printer != nullptr && printer->text() != nullptr`. -/
  printerOk : Bool
  /-- The effects performed so far, oldest first. -/
  out : List Effect
  deriving DecidableEq

/-- The globals as their initialisers leave them (`coinTotal = 0`,
`lastAcceptorUs = 0`), with the relay pin low as `setup` drives it; the
characteristics are the ones given. -/
def Ctlr.init (coinChar statusChar printerOk : Bool) : Ctlr :=
  { coinTotal := 0, lastAcceptorUs := 0, relayHigh := false, nowMs := 0,
    coinChar := coinChar, statusChar := statusChar, printerOk := printerOk, out := [] }

/-- Unsigned 32-bit subtraction `a - b`. -/
def sub32 (a b : Nat) : Nat := (a % 2 ^ 32 + 2 ^ 32 - b % 2 ^ 32) % 2 ^ 32

/-- Append one effect to the trace. -/
def emit (e : Effect) (s : Ctlr) : Ctlr := { s with out := s.out ++ [e] }

/-- The function `relayOn()`. -/
def relayOn (s : Ctlr) : Ctlr := emit (.relay true) { s with relayHigh := true }

/-- The function `relayOff()`. -/
def relayOff (s : Ctlr) : Ctlr := emit (.relay false) { s with relayHigh := false }

/-- The clock read `millis()`. -/
def millis (s : Ctlr) : Nat := s.nowMs % 2 ^ 32

/-- The call `delay(ms)`: the millisecond clock moves on by `ms`. -/
def delay (ms : Nat) (s : Ctlr) : Ctlr :=
  emit (.delay ms) { s with nowMs := (s.nowMs + ms) % 2 ^ 32 }

/-- The two bytes `{ coinTotal & 0xFF, (coinTotal >> 8) & 0xFF }`. -/
def coinBytes (total : Nat) : List Nat := [total &&& 0xFF, (total >>> 8) &&& 0xFF]

/-! ## Interrupt handler -/

/-- The interrupt handler `isrAcceptor()`, with `now` the value returned by `micros()`. -/
def isrAcceptor (now : Nat) (s : Ctlr) : Ctlr :=
  if sub32 now s.lastAcceptorUs < COIN_ACCEPTOR_DEBOUNCE_US then s
  else
    let s1 := { s with lastAcceptorUs := now % 2 ^ 32, coinTotal := (s.coinTotal + 1) % 2 ^ 16 }
    if s1.coinChar then emit (.coinNotify (coinBytes s1.coinTotal)) s1 else s1

/-! ## Notification helpers -/

/-- The function `notifyCoinTotal()`. -/
def notifyCoinTotal (s : Ctlr) : Ctlr :=
  if !s.coinChar then s else emit (.coinNotify (coinBytes s.coinTotal)) s

/-- The function `notifyPayoutDone(dispensed)`. -/
def notifyPayoutDone (dispensed : Nat) (s : Ctlr) : Ctlr :=
  if !s.statusChar then s
  else emit (.statusNotify [EVT_PAYOUT_DONE, dispensed &&& 0xFF, (dispensed >>> 8) &&& 0xFF]) s

/-! ## Single-precision arithmetic -/

/-- A non-negative binary floating-point value `mant * 2 ^ exp`. -/
structure F32 where
  mant : Nat
  exp : Int
  deriving DecidableEq

/-- Number of binary digits of `n`, by halving (`fuel` bounds the halvings). -/
def bitLenAux : Nat → Nat → Nat
  | 0, _ => 0
  | fuel + 1, n => if n = 0 then 0 else bitLenAux fuel (n / 2) + 1

/-- Number of binary digits of `n` (`0` for `0`). -/
def bitLen (n : Nat) : Nat := bitLenAux n n

/-- The binary32 rounding of the positive rational `num / den`, given the
numbers of binary digits `ln` of `num` and `ld` of `den`: the quotient is
scaled to a 24-bit significand and rounded to nearest, ties to even. -/
def f32RoundAt (ln ld num den : Nat) : F32 :=
  let d : Int := (ln : Int) - (ld : Int)
  let E : Int := if den * 2 ^ d.toNat ≤ num * 2 ^ (-d).toNat then d else d - 1
  let e : Int := E - 23
  let N := num * 2 ^ (-e).toNat
  let D := den * 2 ^ e.toNat
  let q := N / D
  let r := N % D
  let m := if D < 2 * r ∨ (2 * r = D ∧ q % 2 = 1) then q + 1 else q
  ⟨m, e⟩

/-- The binary32 value nearest to the non-negative rational `num / den`.
Exponent range limits (overflow, subnormals) are not modelled. -/
def f32Round (num den : Nat) : F32 :=
  if num = 0 then ⟨0, 0⟩ else f32RoundAt (bitLen num) (bitLen den) num den

/-- Numerator of the value of `x` as a fraction. -/
def F32.num (x : F32) : Nat := x.mant * 2 ^ x.exp.toNat

/-- Denominator of the value of `x` as a fraction. -/
def F32.den (x : F32) : Nat := 2 ^ (-x.exp).toNat

/-- Conversion of an unsigned integer to `float`. -/
def F32.ofNat (n : Nat) : F32 := f32Round n 1

/-- Single-precision division. -/
def F32.div (a b : F32) : F32 := f32Round (a.num * b.den) (a.den * b.num)

/-- Single-precision multiplication. -/
def F32.mul (a b : F32) : F32 := f32Round (a.num * b.num) (a.den * b.den)

/-- Conversion `(uint32_t)x`: truncation toward zero. -/
def F32.toUInt32 (x : F32) : Nat := (x.num / x.den) % 2 ^ 32

/-- The constant `DISPENSE_COINS_PER_SEC`, `6.5f`. -/
def DISPENSE_COINS_PER_SEC : F32 := f32Round 13 2

/-! ## Payout -/

/-- The local `durationMs` of `handlePayout`:
`(uint32_t)((((float)targetCount) / DISPENSE_COINS_PER_SEC) * 1000.0f)`. -/
def durationMs (targetCount : Nat) : Nat :=
  let secondsNeeded := F32.div (F32.ofNat targetCount) DISPENSE_COINS_PER_SEC
  F32.toUInt32 (F32.mul secondsNeeded (F32.ofNat 1000))

/-- The loop `while ((millis() - startMs) < durationMs) { delay(1); }`;
`none` when the fuel is used up before the loop exits. -/
def waitLoop : Nat → Nat → Nat → Ctlr → Option Ctlr
  | 0, _, _, _ => none
  | fuel + 1, startMs, dur, s =>
    if sub32 (millis s) startMs < dur then waitLoop fuel startMs dur (delay 1 s)
    else some s

/-- The function `handlePayout(targetCount)`. -/
def handlePayout (fuel : Nat) (targetCount : Nat) (s : Ctlr) : Option Ctlr :=
  if targetCount = 0 then some (notifyPayoutDone 0 s)
  else
    let dur := durationMs targetCount
    let s1 := relayOn s
    let startMs := millis s1
    match waitLoop fuel startMs dur s1 with
    | none => none
    | some s2 => some (notifyPayoutDone targetCount (relayOff s2))

/-! ## Command callback -/

/-- Bytes of an ASCII string literal. -/
def ascii (str : String) : List Nat := str.toList.map Char.toNat

/-- Decimal text of an integer, as `Serial2.print(int)` sends it. -/
def decimal (n : Nat) : List Nat := (Nat.toDigits 10 n).map Char.toNat

/-- The byte `(uint8_t)v[i]`. -/
def byteAt (v : List Nat) (i : Nat) : Nat := v.getD i 0 % 256

/-- The C string left in `line[512]` by the PRINT_RECEIPT branch: at most
`sizeof(line) - 1` payload bytes are copied and a NUL is stored after them,
so the text ends at the first NUL byte. -/
def receiptLine (v : List Nat) : List Nat :=
  (((v.drop 1).take 511).map (· % 256)).takeWhile (· ≠ 0)

/-- UTF-8 bytes of the literal `"=== 交易小票 ===\n"`. -/
def receiptHeader : List Nat :=
  [61, 61, 61, 32, 228, 186, 164, 230, 152, 147, 229, 176, 143, 231, 165, 168, 32, 61, 61, 61, 10]

/-- UTF-8 bytes of the literal `"交易小票"`. -/
def receiptTitle : List Nat := [228, 186, 164, 230, 152, 147, 229, 176, 143, 231, 165, 168]

/-- The PRINT_RECEIPT branch of `onWrite`. -/
def printReceipt (v : List Nat) (s : Ctlr) : Ctlr :=
  if v.length ≤ 1 then s
  else
    let line := receiptLine v
    let s1 := emit .uartFlush (emit (.uartSend (ascii "\n\n\n"))
      (emit (.uartSend line) (emit (.uartSend receiptHeader) s)))
    if s1.printerOk then
      emit (.libJob [.feed_lines 3, .print])
        (emit (.libJob [.bold false, .align false, .utf8_text line, .newline, .print])
          (emit (.libJob [.align true, .bold true, .utf8_text receiptTitle, .newline, .print]) s1))
    else s1

/-- One round of the baud-rate loop of the CMD_DEBUG_PRINTER branch. -/
def baudTest (baud : Nat) (s : Ctlr) : Ctlr :=
  delay 1000 (emit .uartFlush (emit (.uartSend (ascii "\r\n")) (emit (.uartSend (decimal baud))
    (emit (.uartSend (ascii "BAUD TEST ")) (delay 100 (emit (.uartBegin baud) (emit .uartEnd s)))))))

/-- The array `esc_pos_test` of the CMD_DEBUG_PRINTER branch. -/
def esc_pos_test : List Nat :=
  [0x1B, 0x40, 84, 69, 83, 84, 10, 0x1B, 0x45, 0x01, 66, 79, 76, 68, 10,
   0x1B, 0x45, 0x00, 0x1B, 0x64, 0x03]

/-- The CMD_DEBUG_PRINTER branch of `onWrite`. -/
def debugPrinter (s : Ctlr) : Ctlr :=
  let s1 := delay 500 (emit .uartFlush (emit (.uartSend (ascii "RAW TEXT TEST\r\n")) s))
  let s2 := [9600, 19200, 38400, 57600, 115200].foldl (fun st baud => baudTest baud st) s1
  let s3 := delay 100 (emit (.uartBegin PRINTER_UART_BAUD) (emit .uartEnd s2))
  emit .uartFlush (emit (.uartSend esc_pos_test) s3)

/-- The callback `CmdCallbacks::onWrite`, with `v` the bytes of the written value. -/
def onWrite (fuel : Nat) (v : List Nat) (s : Ctlr) : Option Ctlr :=
  if v.length < 1 then some s
  else
    let cmd := byteAt v 0
    if cmd = CMD_START_SESSION then
      some (notifyCoinTotal { s with coinTotal := 0, lastAcceptorUs := 0 })
    else if cmd = CMD_PAYOUT then
      if v.length < 3 then some s
      else
        let target := (byteAt v 1 ||| (byteAt v 2 <<< 8)) % 2 ^ 16
        handlePayout fuel target s
    else if cmd = CMD_PRINT_RECEIPT then some (printReceipt v s)
    else if cmd = CMD_DEBUG_PRINTER then some (debugPrinter s)
    else some s

/-! ## Observations on states and traces -/

/-- A state with the coin characteristic created and the total at `65535`. -/
def fullState : Ctlr := { Ctlr.init true true true with coinTotal := 65535 }

/-- The payloads of the status events of a trace, in order. -/
def statusEvents : List Effect → List (List Nat)
  | [] => []
  | .statusNotify bytes :: es => bytes :: statusEvents es
  | _ :: es => statusEvents es

/-- The payloads of the coin-total notifications of a trace, in order. -/
def coinEvents : List Effect → List (List Nat)
  | [] => []
  | .coinNotify bytes :: es => bytes :: coinEvents es
  | _ :: es => coinEvents es

/-- Replays a trace from the relay level `high` and tells whether every status
event in it is emitted while the relay pin is low. -/
def doneOnlyWhenOff : Bool → List Effect → Bool
  | _, [] => true
  | _, .relay h :: es => doneOnlyWhenOff h es
  | high, .statusNotify _ :: es => !high && doneOnlyWhenOff high es
  | high, _ :: es => doneOnlyWhenOff high es

/-- The state after `n` rounds of `delay(1)`. -/
def hold (n : Nat) (s : Ctlr) : Ctlr := (delay 1)^[n] s

/-- The interrupt handler run on the edges at `ts`, oldest first. -/
def feedEdges : List Nat → Ctlr → Ctlr
  | [], s => s
  | t :: ts, s => feedEdges ts (isrAcceptor t s)

/-- Whether the edge at `now` is counted in state `s`: the handler changes `coinTotal`. -/
def counted (now : Nat) (s : Ctlr) : Bool := (isrAcceptor now s).coinTotal != s.coinTotal

/-- The timestamps of `ts` that the handler counts, in order, from state `s`. -/
def countedEdges : List Nat → Ctlr → List Nat
  | [], _ => []
  | t :: ts, s =>
    if counted t s then t :: countedEdges ts (isrAcceptor t s)
    else countedEdges ts (isrAcceptor t s)

/-- Every edge of `ts` passes the debounce test of `isrAcceptor` when it arrives. -/
def allPass : List Nat → Ctlr → Prop
  | [], _ => True
  | t :: ts, s =>
    ¬ (sub32 t s.lastAcceptorUs < COIN_ACCEPTOR_DEBOUNCE_US) ∧ allPass ts (isrAcceptor t s)

/-! ## Evaluation-order variants of the arithmetic -/

/-- A significand with the two shift amounts of its exponent: the value
`mant * 2 ^ shl / 2 ^ shr`. -/
structure Scaled where
  mant : Nat
  shl : Nat
  shr : Nat

/-- The floating-point value a `Scaled` stands for. -/
def Scaled.toF32 (x : Scaled) : F32 := ⟨x.mant, (x.shl : Int) - (x.shr : Int)⟩

/-- The application `f n`, written so that evaluation computes `n` first. -/
def strict {α : Type} (n : Nat) (f : Nat → α) : α :=
  Nat.rec (motive := fun _ => α) (f 0) (fun k _ => f (Nat.succ k)) n

/-- The application `f x`, with the three fields of `x` computed first. -/
def strictScaled {α : Type} (x : Scaled) (f : Scaled → α) : α :=
  match x with
  | ⟨m, l, r⟩ => strict m fun m1 => strict l fun l1 => strict r fun r1 => f ⟨m1, l1, r1⟩

/-- The number `bitLen x`, tried first as the hint `h`, then as `h + 1`. -/
def bitLenHint (h x : Nat) : Nat :=
  cond (and (Nat.ble (Nat.pow 2 (Nat.sub h 1)) x) (Nat.blt x (Nat.pow 2 h))) h
    (cond (and (Nat.ble (Nat.pow 2 h) x) (Nat.blt x (Nat.pow 2 (Nat.succ h)))) (Nat.succ h)
      (bitLen x))

/-- The function `f32RoundAt` with the exponent kept as two shift amounts and
every intermediate value computed once. -/
def roundAtNat (ln ld num den : Nat) : Scaled :=
  strict (cond (Nat.ble (Nat.mul den (Nat.pow 2 (Nat.sub ln ld)))
      (Nat.mul num (Nat.pow 2 (Nat.sub ld ln)))) 0 1) fun adj =>
  strict (Nat.sub (Nat.add (Nat.add ld adj) 23) ln) fun shr =>
  strict (Nat.sub ln (Nat.add (Nat.add ld adj) 23)) fun shl =>
  strict (Nat.mul num (Nat.pow 2 shr)) fun N =>
  strict (Nat.mul den (Nat.pow 2 shl)) fun D =>
  strict (Nat.div N D) fun q =>
  strict (Nat.mod N D) fun r =>
  strict (cond (or (Nat.blt D (Nat.mul 2 r))
      (and (Nat.beq (Nat.mul 2 r) D) (Nat.beq (Nat.mod q 2) 1))) (Nat.succ q) q) fun m =>
  ⟨m, shl, shr⟩

/-- The function `f32Round`, with hints for the two bit lengths. -/
def roundHint (hn hd num den : Nat) : Scaled :=
  cond (Nat.beq num 0) ⟨0, 0, 0⟩
    (strict (bitLenHint hn num) fun ln => strict (bitLenHint hd den) fun ld =>
      roundAtNat ln ld num den)

/-- The function `durationMs` for a count `n` of `j + 1` binary digits: the
conversion of `n` is written out, and the division and the product are
rounded by `roundHint`. -/
def durationMsHint (j n : Nat) : Nat :=
  strict (Nat.mul (Nat.mul n (Nat.pow 2 (Nat.sub 23 j))) 2097152) fun num1 =>
  strict (Nat.mul (Nat.pow 2 (Nat.sub 23 j)) 13631488) fun den1 =>
  strictScaled (roundHint 45 (Nat.sub 47 j) num1 den1) fun sec =>
  strict (Nat.mul (Nat.mul sec.mant (Nat.pow 2 sec.shl)) 16384000) fun num2 =>
  strict (Nat.mul (Nat.pow 2 sec.shr) 16384) fun den2 =>
  strictScaled (roundHint 47 (Nat.add sec.shr 15) num2 den2) fun p =>
  Nat.mod (Nat.div (Nat.mul p.mant (Nat.pow 2 p.shl)) (Nat.pow 2 p.shr)) 4294967296

/-- Whether `d` equals `n * 2000 / 13` when `n ≤ 13643`, and is within 1 of it
in any case. -/
def durationOk (n d : Nat) : Bool :=
  and (or (Nat.blt 13643 n) (Nat.beq d (Nat.div (Nat.mul n 2000) 13)))
    (and (Nat.ble (Nat.div (Nat.mul n 2000) 13) (Nat.succ d))
      (Nat.ble d (Nat.succ (Nat.div (Nat.mul n 2000) 13))))

/-- Whether `f` holds of the `2 ^ k` numbers from `lo` on. -/
def allFrom (f : Nat → Bool) (k : Nat) : Nat → Bool :=
  Nat.rec (motive := fun _ => Nat → Bool) (fun lo => f lo)
    (fun k ih lo => and (ih lo) (ih (Nat.add lo (Nat.pow 2 k)))) k

/-- Whether `durationOk` holds of `durationMsHint` for every count of `j + 1`
binary digits. -/
def blockOk (j : Nat) : Bool :=
  allFrom (fun n => strict (durationMsHint j n) fun d => durationOk n d) j (Nat.pow 2 j)

/-- One less than the number of binary digits of the counts from `1024 * k` to
`1024 * k + 1023`, for `k ≥ 1`. -/
def hintJ (k : Nat) : Nat := 9 + bitLen k

/-- Whether `durationOk` holds of `durationMsHint` for the 1024 counts from
`1024 * k` on. -/
def chunkOk (k : Nat) : Bool :=
  strict (hintJ k) fun j =>
    allFrom (fun n => strict (durationMsHint j n) fun d => durationOk n d) 10 (Nat.mul 1024 k)

/-- The integer nearest to `n * 2000 / 13`, the duration the specification
words give: `round(n / 6.5 * 1000)` (13 is odd, so there are no ties). -/
def nearestMs (n : Nat) : Nat := (n * 4000 + 13) / 26

/-! ## Observations for the printer and the session counter -/

/-- The levels written to the relay pin in a trace, in order. -/
def relayWrites : List Effect → List Bool
  | [] => []
  | .relay high :: es => high :: relayWrites es
  | _ :: es => relayWrites es

/-- The edge timestamps of the debounce scenario: 0, 5, 30 and 60 ms. -/
def scenarioEdges : List Nat := [0, 5000, 30000, 60000]

/-- A state whose last accepted edge lies 5000 us before the 32-bit
microsecond clock wraps. -/
def nearWrapState : Ctlr := { Ctlr.init true true true with lastAcceptorUs := 2 ^ 32 - 5000 }

/-- The effects of the CMD_DEBUG_PRINTER branch, as it performs them from the
initial state. -/
def debugTrace : List Effect := (debugPrinter (Ctlr.init true true true)).out

/-- The effects of the PRINT_RECEIPT branch for the text `line`; `lib` tells
whether the printer library is available. -/
def receiptTrace (lib : Bool) (line : List Nat) : List Effect :=
  [.uartSend receiptHeader, .uartSend line, .uartSend (ascii "\n\n\n"), .uartFlush] ++
    (if lib then
      [.libJob [.align true, .bold true, .utf8_text receiptTitle, .newline, .print],
       .libJob [.bold false, .align false, .utf8_text line, .newline, .print],
       .libJob [.feed_lines 3, .print]]
    else [])

/-- Four edges in nondecreasing order: the second 5 ms after the first, the
third exactly 20 ms after the first, the fourth 30 ms after the third. -/
def spacedEdges : List Nat := [100000, 105000, 120000, 150000]

/-- A running session whose last accepted edge came shortly before the 32-bit
microsecond clock wraps. -/
def lateState : Ctlr :=
  { Ctlr.init true true true with coinTotal := 7, lastAcceptorUs := 4294000000 }

/-- The state `lateState` after START_SESSION. -/
def lateReset : Ctlr :=
  { lateState with coinTotal := 0, lastAcceptorUs := 0, out := [.coinNotify [0, 0]] }

/-- The edge timestamps of the debounce scenario on a clock that reads 50 ms
at the first edge. -/
def shiftedEdges : List Nat := [50000, 55000, 80000, 110000]

/-! ## Arithmetic helpers -/

theorem and_255 (t : Nat) : t &&& 0xFF = t % 256 := by
  have h := Nat.and_pow_two_sub_one_eq_mod t 8
  simpa using h

theorem shr_8 (t : Nat) : t >>> 8 = t / 256 := by
  simp [Nat.shiftRight_eq_div_pow]

theorem lor_shl_8 (a b : Nat) (h : a < 256) : a ||| (b <<< 8) = a + 256 * b := by
  have h2 := Nat.mul_add_lt_is_or (i := 8) (b := a) (by simpa using h) b
  rw [Nat.lor_comm, Nat.shiftLeft_eq, Nat.mul_comm b, ← h2]; omega

theorem coinBytes_eq (t : Nat) (h : t < 65536) : coinBytes t = [t % 256, t / 256] := by
  unfold coinBytes
  rw [and_255, and_255, shr_8]
  have h2 : t / 256 % 256 = t / 256 := Nat.mod_eq_of_lt (by omega)
  rw [h2]

theorem sub32_of_le (a b : Nat) (ha : a < 2 ^ 32) (hba : b ≤ a) : sub32 a b = a - b := by
  unfold sub32
  have hb : b < 2 ^ 32 := lt_of_le_of_lt hba ha
  rw [Nat.mod_eq_of_lt ha, Nat.mod_eq_of_lt hb]
  omega

/-! ## C1: one step of the debouncer -/

/-- C1 (as stated, refuted): an edge that passes the debounce test in the
state with `coinTotal = 65535` leaves `coinTotal = 0`, not `65536`; and an
accepted edge arriving while `coinChar` is still null emits nothing. -/
theorem isrAcceptor_step_counterexample :
    ¬ (sub32 20000 fullState.lastAcceptorUs < COIN_ACCEPTOR_DEBOUNCE_US) ∧
    (isrAcceptor 20000 fullState).coinTotal = 0 ∧
    (isrAcceptor 20000 fullState).coinTotal ≠ fullState.coinTotal + 1 ∧
    ¬ (sub32 20000 (Ctlr.init false true true).lastAcceptorUs < COIN_ACCEPTOR_DEBOUNCE_US) ∧
    (isrAcceptor 20000 (Ctlr.init false true true)).out = [] := by
  decide

/-- C1 (amended): with the coin characteristic created and `coinTotal < 65535`,
an edge at `now` with `now - lastAcceptorUs < 20000` (unsigned 32-bit) leaves
the whole state, trace included, unchanged; any other edge sets
`lastAcceptorUs = now`, adds exactly 1 to `coinTotal` and appends exactly one
coin-total notification carrying the new total, low byte first. -/
theorem isrAcceptor_step (s : Ctlr) (now : Nat) (hnow : now < 2 ^ 32)
    (hchar : s.coinChar = true) (htot : s.coinTotal < 65535) :
    (sub32 now s.lastAcceptorUs < 20000 → isrAcceptor now s = s) ∧
    (¬ sub32 now s.lastAcceptorUs < 20000 →
      isrAcceptor now s =
        { s with
          lastAcceptorUs := now
          coinTotal := s.coinTotal + 1
          out := s.out ++ [.coinNotify [(s.coinTotal + 1) % 256, (s.coinTotal + 1) / 256]] }) := by
  constructor
  · intro h
    simp [isrAcceptor, COIN_ACCEPTOR_DEBOUNCE_US, h]
  · intro h
    have h1 : (s.coinTotal + 1) % 2 ^ 16 = s.coinTotal + 1 := Nat.mod_eq_of_lt (by omega)
    have h2 : now % 2 ^ 32 = now := Nat.mod_eq_of_lt hnow
    have h3 := coinBytes_eq (s.coinTotal + 1) (by omega)
    simp only [isrAcceptor, COIN_ACCEPTOR_DEBOUNCE_US, h, if_false, hchar, if_true, emit, h1, h2, h3]

/-- Witness for C1: the first accepted edge at 25 ms from the initial state. -/
theorem isrAcceptor_step_witness :
    isrAcceptor 25000 (Ctlr.init true true true) =
      { Ctlr.init true true true with
        lastAcceptorUs := 25000
        coinTotal := 1
        out := [.coinNotify [1, 0]] } :=
  (isrAcceptor_step (Ctlr.init true true true) 25000 (by decide) rfl (by decide)).2 (by decide)

/-! ## The wait loop and the payout -/

theorem hold_out (n : Nat) (s : Ctlr) :
    (hold n s).out = s.out ++ List.replicate n (.delay 1) := by
  induction n generalizing s with
  | zero => simp [hold]
  | succ k ih =>
    have h : hold (k + 1) s = hold k (delay 1 s) := by
      simp [hold, Function.iterate_succ_apply]
    rw [h, ih]
    simp [delay, emit, List.replicate_succ]

theorem hold_fields (n : Nat) (s : Ctlr) :
    (hold n s).relayHigh = s.relayHigh ∧ (hold n s).statusChar = s.statusChar ∧
    (hold n s).coinChar = s.coinChar ∧ (hold n s).printerOk = s.printerOk ∧
    (hold n s).coinTotal = s.coinTotal ∧ (hold n s).lastAcceptorUs = s.lastAcceptorUs := by
  induction n generalizing s with
  | zero => simp [hold]
  | succ k ih =>
    have h : hold (k + 1) s = hold k (delay 1 s) := by
      simp [hold, Function.iterate_succ_apply]
    rw [h]
    simpa [delay, emit] using ih (delay 1 s)

theorem sub32_delay (s : Ctlr) (startMs : Nat) :
    sub32 (millis (delay 1 s)) startMs = (sub32 (millis s) startMs + 1) % 2 ^ 32 := by
  simp only [sub32, millis, delay, emit]
  omega

/-- The loop exits, after exactly the remaining number of rounds, whenever the
fuel exceeds that number. -/
theorem waitLoop_exits (startMs dur : Nat) (hdur : dur < 2 ^ 32) :
    ∀ (j : Nat) (s : Ctlr) (fuel : Nat), sub32 (millis s) startMs + j = dur → j < fuel →
      waitLoop fuel startMs dur s = some (hold j s) := by
  intro j
  induction j with
  | zero =>
    intro s fuel h hf
    obtain ⟨f, rfl⟩ : ∃ f, fuel = f + 1 := ⟨fuel - 1, by omega⟩
    have hnot : ¬ sub32 (millis s) startMs < dur := by omega
    simp [waitLoop, hnot, hold]
  | succ k ih =>
    intro s fuel h hf
    obtain ⟨f, rfl⟩ : ∃ f, fuel = f + 1 := ⟨fuel - 1, by omega⟩
    have hlt : sub32 (millis s) startMs < dur := by omega
    have hstep : sub32 (millis (delay 1 s)) startMs + k = dur := by
      rw [sub32_delay, Nat.mod_eq_of_lt (by omega)]
      omega
    have hh : hold (k + 1) s = hold k (delay 1 s) := by
      simp [hold, Function.iterate_succ_apply]
    simp only [waitLoop, hlt, if_true]
    rw [ih (delay 1 s) f hstep (by omega), hh]

theorem durationMs_lt (n : Nat) : durationMs n < 2 ^ 32 := by
  unfold durationMs F32.toUInt32
  exact Nat.mod_lt _ (by norm_num)

theorem sub32_self (a : Nat) : sub32 a a = 0 := by
  unfold sub32
  omega

/-- With more fuel than `durationMs` rounds, a non-zero payout runs to its end:
relay on, `durationMs` rounds of `delay(1)`, relay off, completion event. -/
theorem handlePayout_run (fuel n : Nat) (s : Ctlr) (hn : n ≠ 0) (hfuel : durationMs n < fuel) :
    handlePayout fuel n s =
      some (notifyPayoutDone n (relayOff (hold (durationMs n) (relayOn s)))) := by
  have hstart : sub32 (millis (relayOn s)) (millis (relayOn s)) + durationMs n = durationMs n := by
    rw [sub32_self]; omega
  have hloop := waitLoop_exits (millis (relayOn s)) (durationMs n) (durationMs_lt n)
    (durationMs n) (relayOn s) fuel hstart hfuel
  simp only [handlePayout, hn, if_false, hloop]

theorem handlePayout_out (fuel n : Nat) (s : Ctlr) (hn : n ≠ 0) (hn16 : n < 65536)
    (hs : s.statusChar = true) (hfuel : durationMs n < fuel) :
    ∃ s1, handlePayout fuel n s = some s1 ∧ s1.relayHigh = false ∧
      s1.coinTotal = s.coinTotal ∧ s1.lastAcceptorUs = s.lastAcceptorUs ∧
      s1.out = s.out ++ (.relay true :: List.replicate (durationMs n) (.delay 1)) ++
        [.relay false, .statusNotify [0x10, n % 256, n / 256]] := by
  refine ⟨_, handlePayout_run fuel n s hn hfuel, ?_⟩
  obtain ⟨-, h2, -, -, h5, h6⟩ := hold_fields (durationMs n) (relayOn s)
  have h7 := hold_out (durationMs n) (relayOn s)
  have hb : n / 256 % 256 = n / 256 := Nat.mod_eq_of_lt (by omega)
  have r2 : (relayOn s).statusChar = true := hs
  have r5 : (relayOn s).coinTotal = s.coinTotal := rfl
  have r6 : (relayOn s).lastAcceptorUs = s.lastAcceptorUs := rfl
  have r7 : (relayOn s).out = s.out ++ [.relay true] := rfl
  rw [r2] at h2
  rw [r5] at h5
  rw [r6] at h6
  rw [r7] at h7
  generalize hold (durationMs n) (relayOn s) = t at h2 h5 h6 h7
  simp [notifyPayoutDone, relayOff, emit, h2, h5, h6, h7, EVT_PAYOUT_DONE, and_255, shr_8, hb]

theorem handlePayout_zero (fuel : Nat) (s : Ctlr) (hs : s.statusChar = true) :
    handlePayout fuel 0 s = some { s with out := s.out ++ [.statusNotify [0x10, 0, 0]] } := by
  simp [handlePayout, notifyPayoutDone, hs, emit, EVT_PAYOUT_DONE]

theorem statusEvents_append (a b : List Effect) :
    statusEvents (a ++ b) = statusEvents a ++ statusEvents b := by
  induction a with
  | nil => rfl
  | cons e es ih => cases e <;> simp [statusEvents, ih]

theorem statusEvents_delays (k : Nat) : statusEvents (List.replicate k (.delay 1)) = [] := by
  induction k with
  | zero => rfl
  | succ k ih => simp [List.replicate_succ, statusEvents, ih]

theorem doneOnlyWhenOff_delays (k : Nat) (high : Bool) (es : List Effect) :
    doneOnlyWhenOff high (List.replicate k (.delay 1) ++ es) = doneOnlyWhenOff high es := by
  induction k with
  | zero => rfl
  | succ k ih => simp [List.replicate_succ, doneOnlyWhenOff, ih]

theorem onWrite_payout (fuel b1 b2 : Nat) (rest : List Nat) (s : Ctlr)
    (h1 : b1 < 256) (h2 : b2 < 256) :
    onWrite fuel (0x02 :: b1 :: b2 :: rest) s = handlePayout fuel (b1 + 256 * b2) s := by
  have e1 : b1 % 256 = b1 := Nat.mod_eq_of_lt h1
  have e2 : b2 % 256 = b2 := Nat.mod_eq_of_lt h2
  have e3 : (b1 + 256 * b2) % 65536 = b1 + 256 * b2 := Nat.mod_eq_of_lt (by omega)
  have e4 : ¬ (rest.length + 1 + 1 + 1 < 3) := by omega
  simp [onWrite, byteAt, CMD_START_SESSION, CMD_PAYOUT, e1, e2, e3, e4, lor_shl_8 b1 b2 h1]

/-! ## C2: PAYOUT round trip -/

/-- C2: for every frame `0x02, b1, b2, ...` and every state in which the status
characteristic exists, `onWrite` is `handlePayout` on the target
`b1 + 256 * b2`; with fuel for the wait it returns, and the status events it
adds are exactly the one event `[0x10, b1, b2]`, whose payload decodes
little-endian to the requested count. -/
theorem payout_round_trip (fuel b1 b2 : Nat) (rest : List Nat) (s : Ctlr)
    (h1 : b1 < 256) (h2 : b2 < 256) (hs : s.statusChar = true)
    (hfuel : durationMs (b1 + 256 * b2) < fuel) :
    onWrite fuel (0x02 :: b1 :: b2 :: rest) s = handlePayout fuel (b1 + 256 * b2) s ∧
    ∃ s1, onWrite fuel (0x02 :: b1 :: b2 :: rest) s = some s1 ∧
      statusEvents s1.out = statusEvents s.out ++ [[0x10, b1, b2]] := by
  have hw := onWrite_payout fuel b1 b2 rest s h1 h2
  refine ⟨hw, ?_⟩
  rw [hw]
  by_cases hz : b1 + 256 * b2 = 0
  · have hb1 : b1 = 0 := by omega
    have hb2 : b2 = 0 := by omega
    subst hb1
    subst hb2
    refine ⟨_, handlePayout_zero fuel s hs, ?_⟩
    simp [statusEvents_append, statusEvents]
  · obtain ⟨s1, hrun, -, -, -, hout⟩ :=
      handlePayout_out fuel (b1 + 256 * b2) s hz (by omega) hs hfuel
    refine ⟨s1, hrun, ?_⟩
    have e1 : (b1 + 256 * b2) % 256 = b1 := by omega
    have e2 : (b1 + 256 * b2) / 256 = b2 := by omega
    rw [hout, e1, e2]
    simp [statusEvents_append, statusEvents, statusEvents_delays]

/-- Witness for C2: a PAYOUT frame asking for one coin. -/
theorem payout_round_trip_witness :
    ∃ s1, onWrite 200 [0x02, 1, 0] (Ctlr.init true true true) = some s1 ∧
      statusEvents s1.out = [[0x10, 1, 0]] :=
  (payout_round_trip 200 1 0 [] (Ctlr.init true true true) (by decide) (by decide) rfl
    (by decide)).2

/-! ## C4: START_SESSION -/

/-- C4: for every prior state in which the coin characteristic exists and every
frame whose first byte is `0x01`, `onWrite` returns the prior state with
`coinTotal = 0`, `lastAcceptorUs = 0` and exactly one more effect, the
coin-total notification `[0x00, 0x00]`; nothing else (relay, status events)
changes, so the total read afterwards is `0`. -/
theorem start_session_reset (fuel : Nat) (rest : List Nat) (s : Ctlr)
    (hc : s.coinChar = true) :
    onWrite fuel (0x01 :: rest) s =
      some { s with coinTotal := 0, lastAcceptorUs := 0, out := s.out ++ [.coinNotify [0, 0]] } := by
  simp [onWrite, byteAt, CMD_START_SESSION, notifyCoinTotal, hc, emit, coinBytes]

/-- Witness for C4: a reset of a session that had reached `65535`. -/
theorem start_session_reset_witness :
    onWrite 0 [0x01] fullState =
      some { fullState with coinTotal := 0, lastAcceptorUs := 0, out := [.coinNotify [0, 0]] } :=
  start_session_reset 0 [] fullState rfl

/-! ## C5: PAYOUT_DONE comes after the relay is switched off -/

/-- C5: started with the relay off and the status characteristic created,
`handlePayout` (with fuel for the wait) returns with the relay off, and in the
effects it adds every status event is emitted while the relay is low; for
`n ≥ 1` these effects are exactly relay on, `durationMs n` rounds of
`delay(1)`, relay off, then the event `[0x10, n % 256, n / 256]`. -/
theorem payout_done_after_relay_off (fuel n : Nat) (s : Ctlr) (hn16 : n < 65536)
    (hoff : s.relayHigh = false) (hs : s.statusChar = true) (hfuel : durationMs n < fuel) :
    ∃ s1 tr, handlePayout fuel n s = some s1 ∧ s1.out = s.out ++ tr ∧
      s1.relayHigh = false ∧ doneOnlyWhenOff s.relayHigh tr = true ∧
      (1 ≤ n → tr = (.relay true :: List.replicate (durationMs n) (.delay 1)) ++
        [.relay false, .statusNotify [0x10, n % 256, n / 256]]) := by
  by_cases hz : n = 0
  · subst hz
    refine ⟨_, [.statusNotify [0x10, 0, 0]], handlePayout_zero fuel s hs, rfl, hoff, ?_, ?_⟩
    · simp [doneOnlyWhenOff, hoff]
    · intro h
      omega
  · obtain ⟨s1, hrun, hrel, -, -, hout⟩ := handlePayout_out fuel n s hz hn16 hs hfuel
    refine ⟨s1, _, hrun, ?_, hrel, ?_, fun _ => rfl⟩
    · rw [hout, List.append_assoc]
    · simp [doneOnlyWhenOff, doneOnlyWhenOff_delays]

/-- Witness for C5: a payout of ten coins from the initial state. -/
theorem payout_done_after_relay_off_witness :
    ∃ s1 tr, handlePayout 2000 10 (Ctlr.init true true true) = some s1 ∧
      s1.out = (Ctlr.init true true true).out ++ tr ∧
      s1.relayHigh = false ∧ doneOnlyWhenOff (Ctlr.init true true true).relayHigh tr = true ∧
      (1 ≤ 10 → tr = (.relay true :: List.replicate (durationMs 10) (.delay 1)) ++
        [.relay false, .statusNotify [0x10, 10 % 256, 10 / 256]]) :=
  payout_done_after_relay_off 2000 10 (Ctlr.init true true true) (by decide) rfl rfl (by decide)

/-! ## C6: zero-count payout -/

/-- C6: with the status characteristic created, `handlePayout 0` returns for
every amount of fuel, and the state it returns is the prior state with exactly
one more effect, the status event `[0x10, 0x00, 0x00]`: no relay write, no
`delay`, relay level and clock unchanged. -/
theorem payout_zero (fuel : Nat) (s : Ctlr) (hs : s.statusChar = true) :
    handlePayout fuel 0 s = some { s with out := s.out ++ [.statusNotify [0x10, 0, 0]] } ∧
    ∀ s1, handlePayout fuel 0 s = some s1 →
      s1.relayHigh = s.relayHigh ∧ s1.nowMs = s.nowMs ∧
      Effect.relay true ∉ s1.out.drop s.out.length ∧
      statusEvents (s1.out.drop s.out.length) = [[0x10, 0, 0]] := by
  have h := handlePayout_zero fuel s hs
  refine ⟨h, ?_⟩
  intro s1 h1
  rw [h] at h1
  cases h1
  simp [statusEvents]

/-- Witness for C6: a zero-count payout with no fuel at all. -/
theorem payout_zero_witness :
    handlePayout 0 0 (Ctlr.init true true true) =
      some { Ctlr.init true true true with out := [.statusNotify [0x10, 0, 0]] } :=
  (payout_zero 0 (Ctlr.init true true true) rfl).1

/-! ## C7: malformed frames -/

/-- C7: the empty frame and every frame with first byte `0x02` and fewer than
three bytes leave the whole state, trace included, unchanged; conversely a
frame `0x02, b1, b2, ...` is not dropped: with the status characteristic
created and fuel for the wait, `onWrite` returns a state whose trace has grown
by effects ending in the PAYOUT_DONE event `[0x10, b1, b2]`. -/
theorem malformed_frames_discarded (fuel : Nat) (s : Ctlr) :
    onWrite fuel [] s = some s ∧
    (∀ v : List Nat, v.head? = some 0x02 → v.length < 3 → onWrite fuel v s = some s) ∧
    (∀ (b1 b2 : Nat) (rest : List Nat), b1 < 256 → b2 < 256 → s.statusChar = true →
      durationMs (b1 + 256 * b2) < fuel →
      ∃ s1 tr, onWrite fuel (0x02 :: b1 :: b2 :: rest) s = some s1 ∧
        s1.out = s.out ++ tr ++ [.statusNotify [0x10, b1, b2]] ∧ s1 ≠ s) := by
  refine ⟨by simp [onWrite], ?_, ?_⟩
  · intro v hhead hlen
    match v, hhead, hlen with
    | [_], hh, _ =>
      simp only [List.head?_cons, Option.some.injEq] at hh
      subst hh
      simp [onWrite, byteAt, CMD_START_SESSION, CMD_PAYOUT]
    | [_, b], hh, _ =>
      simp only [List.head?_cons, Option.some.injEq] at hh
      subst hh
      simp [onWrite, byteAt, CMD_START_SESSION, CMD_PAYOUT]
  · intro b1 b2 rest h1 h2 hs hfuel
    rw [onWrite_payout fuel b1 b2 rest s h1 h2]
    by_cases hz : b1 + 256 * b2 = 0
    · have hb1 : b1 = 0 := by omega
      have hb2 : b2 = 0 := by omega
      subst hb1
      subst hb2
      refine ⟨_, [], handlePayout_zero fuel s hs, by simp, ?_⟩
      intro h
      have := congrArg (fun t => t.out.length) h
      simp at this
    · obtain ⟨s1, hrun, -, -, -, hout⟩ :=
        handlePayout_out fuel (b1 + 256 * b2) s hz (by omega) hs hfuel
      have e1 : (b1 + 256 * b2) % 256 = b1 := by omega
      have e2 : (b1 + 256 * b2) / 256 = b2 := by omega
      rw [e1, e2] at hout
      refine ⟨s1, (.relay true :: List.replicate (durationMs (b1 + 256 * b2)) (.delay 1)) ++
        [.relay false], hrun, ?_, ?_⟩
      · rw [hout]
        simp
      · intro h
        have := congrArg (fun t => t.out.length) h
        simp [hout] at this

/-- Witness for C7: a PAYOUT frame with a one-byte payload is dropped, and one
with a two-byte payload ends in its PAYOUT_DONE event. -/
theorem malformed_frames_discarded_witness :
    onWrite 200 [0x02, 7] (Ctlr.init true true true) = some (Ctlr.init true true true) ∧
    ∃ s1 tr, onWrite 200 [0x02, 1, 0] (Ctlr.init true true true) = some s1 ∧
      s1.out = (Ctlr.init true true true).out ++ tr ++ [.statusNotify [0x10, 1, 0]] ∧
      s1 ≠ Ctlr.init true true true :=
  ⟨(malformed_frames_discarded 200 (Ctlr.init true true true)).2.1 [0x02, 7] rfl (by decide),
   (malformed_frames_discarded 200 (Ctlr.init true true true)).2.2 1 0 [] (by decide) (by decide)
     rfl (by decide)⟩

/-! ## The debouncer on sequences of edges -/

theorem isrAcceptor_reject (now : Nat) (s : Ctlr)
    (h : sub32 now s.lastAcceptorUs < COIN_ACCEPTOR_DEBOUNCE_US) : isrAcceptor now s = s := by
  simp [isrAcceptor, h]

theorem isrAcceptor_accept (now : Nat) (s : Ctlr)
    (h : ¬ sub32 now s.lastAcceptorUs < COIN_ACCEPTOR_DEBOUNCE_US) :
    (isrAcceptor now s).lastAcceptorUs = now % 2 ^ 32 ∧
    (isrAcceptor now s).coinTotal = (s.coinTotal + 1) % 2 ^ 16 ∧
    (isrAcceptor now s).coinChar = s.coinChar := by
  unfold isrAcceptor
  rw [if_neg h]
  cases hc : s.coinChar <;> simp [hc, emit]

theorem counted_iff (now : Nat) (s : Ctlr) :
    counted now s = true ↔ ¬ sub32 now s.lastAcceptorUs < COIN_ACCEPTOR_DEBOUNCE_US := by
  unfold counted
  by_cases h : sub32 now s.lastAcceptorUs < COIN_ACCEPTOR_DEBOUNCE_US
  · simp [isrAcceptor_reject now s h, h]
  · have h2 := (isrAcceptor_accept now s h).2.1
    simp only [h, not_false_eq_true, iff_true, bne_iff_ne, ne_eq, h2]
    omega

/-- Once the stored timestamp is at or before every edge still to come, the
counted edges are pairwise a full window apart and each is a full window after
the stored timestamp. -/
theorem countedEdges_spaced (ts : List Nat) :
    ∀ s : Ctlr, List.Pairwise (· ≤ ·) ts → (∀ t ∈ ts, t < 2 ^ 32) →
      (∀ t ∈ ts, s.lastAcceptorUs ≤ t) →
      List.Pairwise (fun a b => a + 20000 ≤ b) (countedEdges ts s) ∧
      ∀ c ∈ countedEdges ts s, s.lastAcceptorUs + 20000 ≤ c := by
  induction ts with
  | nil => intro s _ _ _; simp [countedEdges]
  | cons t ts ih =>
    intro s hsorted hrange hlast
    have ht : t < 2 ^ 32 := hrange t (List.mem_cons_self _ _)
    have hlt : s.lastAcceptorUs ≤ t := hlast t (List.mem_cons_self _ _)
    have hsub : sub32 t s.lastAcceptorUs = t - s.lastAcceptorUs := sub32_of_le _ _ ht hlt
    rw [List.pairwise_cons] at hsorted
    have hrange2 : ∀ u ∈ ts, u < 2 ^ 32 := fun u hu => hrange u (List.mem_cons_of_mem _ hu)
    by_cases hc : counted t s = true
    · have hpass := (counted_iff t s).1 hc
      have hl := (isrAcceptor_accept t s hpass).1
      rw [Nat.mod_eq_of_lt ht] at hl
      have hge : s.lastAcceptorUs + 20000 ≤ t := by
        rw [hsub] at hpass
        simp only [COIN_ACCEPTOR_DEBOUNCE_US] at hpass
        omega
      obtain ⟨ih1, ih2⟩ := ih (isrAcceptor t s) hsorted.2 hrange2
        (fun u hu => by rw [hl]; exact hsorted.1 u hu)
      rw [hl] at ih2
      simp only [countedEdges, hc, if_true, List.pairwise_cons, List.mem_cons]
      refine ⟨⟨ih2, ih1⟩, ?_⟩
      rintro c (rfl | hcm)
      · exact hge
      · have := ih2 c hcm
        omega
    · have hrej : sub32 t s.lastAcceptorUs < COIN_ACCEPTOR_DEBOUNCE_US := by
        by_contra hn
        exact hc ((counted_iff t s).2 hn)
      simp only [countedEdges, hc, isrAcceptor_reject t s hrej]
      exact ih s hsorted.2 hrange2 (fun u hu => hlast u (List.mem_cons_of_mem _ hu))

theorem countedEdges_pairwise (ts : List Nat) :
    ∀ s : Ctlr, List.Pairwise (· ≤ ·) ts → (∀ t ∈ ts, t < 2 ^ 32) →
      List.Pairwise (fun a b => a + 20000 ≤ b) (countedEdges ts s) := by
  induction ts with
  | nil => intro s _ _; simp [countedEdges]
  | cons t ts ih =>
    intro s hsorted hrange
    have ht : t < 2 ^ 32 := hrange t (List.mem_cons_self _ _)
    rw [List.pairwise_cons] at hsorted
    have hrange2 : ∀ u ∈ ts, u < 2 ^ 32 := fun u hu => hrange u (List.mem_cons_of_mem _ hu)
    by_cases hc : counted t s = true
    · have hpass := (counted_iff t s).1 hc
      have hl := (isrAcceptor_accept t s hpass).1
      rw [Nat.mod_eq_of_lt ht] at hl
      obtain ⟨h1, h2⟩ := countedEdges_spaced ts (isrAcceptor t s) hsorted.2 hrange2
        (fun u hu => by rw [hl]; exact hsorted.1 u hu)
      rw [hl] at h2
      simp only [countedEdges, hc, if_true, List.pairwise_cons]
      exact ⟨h2, h1⟩
    · have hrej : sub32 t s.lastAcceptorUs < COIN_ACCEPTOR_DEBOUNCE_US := by
        by_contra hn
        exact hc ((counted_iff t s).2 hn)
      simp only [countedEdges, hc, isrAcceptor_reject t s hrej]
      exact ih s hsorted.2 hrange2

theorem countedEdges_sublist (ts : List Nat) :
    ∀ s : Ctlr, List.Sublist (countedEdges ts s) ts := by
  induction ts with
  | nil => intro s; simp [countedEdges]
  | cons t ts ih =>
    intro s
    by_cases hc : counted t s = true
    · simp only [countedEdges, hc, if_true]
      exact (ih _).cons₂ t
    · simp only [countedEdges, hc]
      exact (ih _).cons t

/-- The stored timestamp is the last counted edge, if there is one. -/
theorem feedEdges_last (ts : List Nat) :
    ∀ s : Ctlr, (∀ t ∈ ts, t < 2 ^ 32) →
      (feedEdges ts s).lastAcceptorUs = ((countedEdges ts s).getLast?).getD s.lastAcceptorUs := by
  induction ts with
  | nil => intro s _; simp [feedEdges, countedEdges]
  | cons t ts ih =>
    intro s hrange
    have ht : t < 2 ^ 32 := hrange t (List.mem_cons_self _ _)
    have hrange2 : ∀ u ∈ ts, u < 2 ^ 32 := fun u hu => hrange u (List.mem_cons_of_mem _ hu)
    by_cases hc : counted t s = true
    · have hpass := (counted_iff t s).1 hc
      have hl := (isrAcceptor_accept t s hpass).1
      rw [Nat.mod_eq_of_lt ht] at hl
      simp only [feedEdges, countedEdges, hc, if_true]
      rw [ih (isrAcceptor t s) hrange2, hl]
      cases hce : countedEdges ts (isrAcceptor t s) with
      | nil => simp
      | cons a l =>
        rw [List.getLast?_cons_cons, List.getLast?_eq_getLast _ (List.cons_ne_nil a l)]
        rfl
    · have hrej : sub32 t s.lastAcceptorUs < COIN_ACCEPTOR_DEBOUNCE_US := by
        by_contra hn
        exact hc ((counted_iff t s).2 hn)
      simp only [feedEdges, countedEdges, hc, isrAcceptor_reject t s hrej]
      exact ih s hrange2

theorem feedEdges_total (ts : List Nat) :
    ∀ s : Ctlr, (feedEdges ts s).coinTotal % 2 ^ 16 =
      (s.coinTotal + (countedEdges ts s).length) % 2 ^ 16 := by
  induction ts with
  | nil => intro s; simp [feedEdges, countedEdges]
  | cons t ts ih =>
    intro s
    by_cases hc : counted t s = true
    · have hpass := (counted_iff t s).1 hc
      have ht := (isrAcceptor_accept t s hpass).2.1
      simp only [feedEdges, countedEdges, hc, if_true, List.length_cons]
      rw [ih (isrAcceptor t s), ht]
      omega
    · have hrej : sub32 t s.lastAcceptorUs < COIN_ACCEPTOR_DEBOUNCE_US := by
        by_contra hn
        exact hc ((counted_iff t s).2 hn)
      simp only [feedEdges, countedEdges, hc, isrAcceptor_reject t s hrej]
      exact ih s

/-! ## C8: debounce over sequences -/

/-- C8: for edges fed in nondecreasing order on the 32-bit clock, from any
state: the counted edges are a subsequence of the edges fed, any two of them
are at least 20000 us apart (so of two edges closer than the window at most
one is counted), and `coinTotal` advances by the number of counted edges. An
edge that arrives after some counted edge is counted exactly when it is at
least 20000 us after the last counted edge, exactly 20000 included; an edge
that arrives before any edge was counted is counted exactly when it is at
least 20000 us after the timestamp stored at the start. -/
theorem debounce_over_sequences (ts : List Nat) (s : Ctlr)
    (hsorted : List.Pairwise (· ≤ ·) ts) (hrange : ∀ t ∈ ts, t < 2 ^ 32) :
    List.Sublist (countedEdges ts s) ts ∧
    List.Pairwise (fun a b => a + 20000 ≤ b) (countedEdges ts s) ∧
    (feedEdges ts s).coinTotal % 2 ^ 16 = (s.coinTotal + (countedEdges ts s).length) % 2 ^ 16 ∧
    (∀ (pre : List Nat) (t : Nat) (post : List Nat) (c : Nat), ts = pre ++ t :: post →
      (countedEdges pre s).getLast? = some c →
      (counted t (feedEdges pre s) = true ↔ c + 20000 ≤ t)) ∧
    (∀ (pre : List Nat) (t : Nat) (post : List Nat), ts = pre ++ t :: post →
      countedEdges pre s = [] → s.lastAcceptorUs ≤ t →
      (counted t (feedEdges pre s) = true ↔ s.lastAcceptorUs + 20000 ≤ t)) := by
  refine ⟨countedEdges_sublist ts s, countedEdges_pairwise ts s hsorted hrange,
    feedEdges_total ts s, ?_, ?_⟩
  · intro pre t post c hts hlast
    have ht : t < 2 ^ 32 := hrange t (by rw [hts]; simp)
    have hpre : ∀ u ∈ pre, u < 2 ^ 32 := fun u hu => hrange u (by rw [hts]; simp [hu])
    have hc : c ∈ pre :=
      (countedEdges_sublist pre s).subset (List.mem_of_getLast?_eq_some hlast)
    have hct : c ≤ t := by
      rw [hts, List.pairwise_append] at hsorted
      exact hsorted.2.2 c hc t (List.mem_cons_self _ _)
    have hl := feedEdges_last pre s hpre
    rw [hlast] at hl
    simp only [Option.getD_some] at hl
    rw [counted_iff, hl, sub32_of_le t c ht hct]
    simp only [COIN_ACCEPTOR_DEBOUNCE_US]
    omega
  · intro pre t post hts hnone hst
    have ht : t < 2 ^ 32 := hrange t (by rw [hts]; simp)
    have hpre : ∀ u ∈ pre, u < 2 ^ 32 := fun u hu => hrange u (by rw [hts]; simp [hu])
    have hl := feedEdges_last pre s hpre
    rw [hnone] at hl
    simp only [List.getLast?_nil, Option.getD_none] at hl
    rw [counted_iff, hl, sub32_of_le t s.lastAcceptorUs ht hst]
    simp only [COIN_ACCEPTOR_DEBOUNCE_US]
    omega

/-- Witness for C8: of four edges from the initial state, the first is
counted, the second, 5 ms later, is not, the third, exactly 20 ms after the
first, is counted; three edges are counted in all and the total is 3. -/
theorem debounce_over_sequences_witness :
    List.Pairwise (fun a b => a + 20000 ≤ b) (countedEdges spacedEdges (Ctlr.init true true true)) ∧
    counted 100000 (feedEdges [] (Ctlr.init true true true)) = true ∧
    ¬ counted 105000 (feedEdges [100000] (Ctlr.init true true true)) = true ∧
    counted 120000 (feedEdges [100000, 105000] (Ctlr.init true true true)) = true ∧
    countedEdges spacedEdges (Ctlr.init true true true) = [100000, 120000, 150000] ∧
    (feedEdges spacedEdges (Ctlr.init true true true)).coinTotal = 3 :=
  ⟨(debounce_over_sequences spacedEdges (Ctlr.init true true true) (by decide) (by decide)).2.1,
   ((debounce_over_sequences spacedEdges (Ctlr.init true true true) (by decide)
      (by decide)).2.2.2.2 [] 100000 [105000, 120000, 150000] rfl rfl (by decide)).2 (by decide),
   fun h => absurd
     (((debounce_over_sequences spacedEdges (Ctlr.init true true true) (by decide)
        (by decide)).2.2.2.1 [100000] 105000 [120000, 150000] 100000 rfl (by decide)).1 h)
     (by decide),
   ((debounce_over_sequences spacedEdges (Ctlr.init true true true) (by decide)
      (by decide)).2.2.2.1 [100000, 105000] 120000 [150000] 100000 rfl (by decide)).2 (by decide),
   by decide, by decide⟩

/-! ## C9: count notifications in order -/

theorem feedEdges_allPass (ts : List Nat) :
    ∀ s : Ctlr, s.coinChar = true → allPass ts s → s.coinTotal + ts.length ≤ 65535 →
      (feedEdges ts s).coinTotal = s.coinTotal + ts.length ∧
      (feedEdges ts s).out = s.out ++ (List.range ts.length).map
        (fun i => Effect.coinNotify [(s.coinTotal + (i + 1)) % 256, (s.coinTotal + (i + 1)) / 256]) := by
  induction ts with
  | nil => intro s _ _ _; simp [feedEdges]
  | cons t ts ih =>
    intro s hc hpass hlen
    obtain ⟨hp, hrest⟩ := hpass
    simp only [List.length_cons] at hlen
    have h1 : (s.coinTotal + 1) % 2 ^ 16 = s.coinTotal + 1 := Nat.mod_eq_of_lt (by omega)
    have hb := coinBytes_eq (s.coinTotal + 1) (by omega)
    have hstep : isrAcceptor t s =
        { s with
          lastAcceptorUs := t % 2 ^ 32
          coinTotal := s.coinTotal + 1
          out := s.out ++ [.coinNotify [(s.coinTotal + 1) % 256, (s.coinTotal + 1) / 256]] } := by
      simp only [isrAcceptor, hp, if_false, hc, if_true, emit, h1, hb]
    obtain ⟨ih1, ih2⟩ := ih (isrAcceptor t s) (by rw [hstep]; exact hc) hrest
      (by rw [hstep]; simp only []; omega)
    simp only [feedEdges, List.length_cons]
    rw [ih1, ih2, hstep]
    refine ⟨by simp only []; omega, ?_⟩
    simp only [List.range_succ_eq_map, List.map_cons, List.map_map, List.append_assoc,
      List.singleton_append, Nat.zero_add]
    congr 2
    apply List.map_congr_left
    intro i _
    simp only [Function.comp, Nat.succ_eq_add_one]
    have e : s.coinTotal + 1 + (i + 1) = s.coinTotal + (i + 1 + 1) := by omega
    rw [e]

/-- C9: from the state START_SESSION produces (coin characteristic created),
for `1 ≤ k ≤ 65535` and any `k` edges that each pass the debounce test, the
handler adds to the trace exactly the coin-total notifications
`[i % 256, i / 256]` for `i = 1, ..., k`, in that order, and the total read
afterwards is `k`. -/
theorem count_notifications_in_order (fuel : Nat) (rest : List Nat) (s0 s1 : Ctlr)
    (ts : List Nat) (k : Nat) (hc : s0.coinChar = true)
    (hstart : onWrite fuel (0x01 :: rest) s0 = some s1)
    (hk1 : 1 ≤ k) (hk : k ≤ 65535) (hlen : ts.length = k) (hpass : allPass ts s1) :
    (feedEdges ts s1).out = s1.out ++ (List.range k).map
      (fun i => Effect.coinNotify [(i + 1) % 256, (i + 1) / 256]) ∧
    coinEvents ((feedEdges ts s1).out.drop s1.out.length) =
      (List.range k).map (fun i => [(i + 1) % 256, (i + 1) / 256]) ∧
    (feedEdges ts s1).coinTotal = k := by
  have hs1 : s1 =
      { s0 with coinTotal := 0, lastAcceptorUs := 0, out := s0.out ++ [.coinNotify [0, 0]] } := by
    have h : onWrite fuel (0x01 :: rest) s0 = some
        { s0 with coinTotal := 0, lastAcceptorUs := 0, out := s0.out ++ [.coinNotify [0, 0]] } := by
      simp [onWrite, byteAt, CMD_START_SESSION, notifyCoinTotal, hc, emit, coinBytes]
    rw [h] at hstart
    exact (Option.some.inj hstart).symm
  have hc1 : s1.coinChar = true := by rw [hs1]; exact hc
  have ht1 : s1.coinTotal = 0 := by rw [hs1]
  obtain ⟨h1, h2⟩ := feedEdges_allPass ts s1 hc1 hpass (by rw [ht1, hlen]; omega)
  rw [ht1, hlen] at h1 h2
  simp only [Nat.zero_add] at h1 h2
  refine ⟨h2, ?_, h1⟩
  rw [h2, List.drop_left]
  clear h2 hlen hpass hk hk1
  induction (List.range k) with
  | nil => rfl
  | cons a l ih => simp [coinEvents, ih]

/-- Witness for C9: START_SESSION, then three edges 20 ms apart carry 1, 2, 3. -/
theorem count_notifications_in_order_witness :
    (feedEdges [20000, 40000, 60000]
        { fullState with coinTotal := 0, out := [.coinNotify [0, 0]] }).out =
      [.coinNotify [0, 0], .coinNotify [1, 0], .coinNotify [2, 0], .coinNotify [3, 0]] ∧
    coinEvents ((feedEdges [20000, 40000, 60000]
        { fullState with coinTotal := 0, out := [.coinNotify [0, 0]] }).out.drop 1) =
      [[1, 0], [2, 0], [3, 0]] ∧
    (feedEdges [20000, 40000, 60000]
        { fullState with coinTotal := 0, out := [.coinNotify [0, 0]] }).coinTotal = 3 :=
  count_notifications_in_order 0 [] fullState
    { fullState with coinTotal := 0, out := [.coinNotify [0, 0]] } [20000, 40000, 60000] 3
    rfl rfl (by decide) (by decide) rfl ⟨by decide, by decide, by decide, trivial⟩

/-! ## C10: the first edge -/

/-- An edge 5 ms after the zero of the clock is dropped, both as the first
edge after start and as the first edge after a START_SESSION reset: the total
stays `0`. -/
theorem first_edge_counterexample :
    (isrAcceptor 5000 (Ctlr.init true true true)).coinTotal = 0 ∧
    onWrite 0 [0x01] fullState =
      some { fullState with coinTotal := 0, out := [.coinNotify [0, 0]] } ∧
    (isrAcceptor 5000 { fullState with coinTotal := 0, out := [.coinNotify [0, 0]] }).coinTotal
      = 0 := by
  decide

/-- How the code treats the first edge after controller start and after a
START_SESSION reset: `coinTotal` becomes 1 exactly when the timestamp of the
edge is at least 20000 us on the 32-bit clock. -/
theorem first_edge_counted_iff (now fuel : Nat) (rest : List Nat) (s0 s1 : Ctlr)
    (cc sc pk : Bool) (hnow : now < 2 ^ 32)
    (hstart : onWrite fuel (0x01 :: rest) s0 = some s1) :
    ((isrAcceptor now (Ctlr.init cc sc pk)).coinTotal = 1 ↔ 20000 ≤ now) ∧
    ((isrAcceptor now s1).coinTotal = 1 ↔ 20000 ≤ now) := by
  have hsub : sub32 now 0 = now := by
    rw [sub32_of_le now 0 hnow (Nat.zero_le _)]
    rfl
  have key : ∀ s : Ctlr, s.coinTotal = 0 → s.lastAcceptorUs = 0 →
      ((isrAcceptor now s).coinTotal = 1 ↔ 20000 ≤ now) := by
    intro s h0 hl
    by_cases h : sub32 now s.lastAcceptorUs < COIN_ACCEPTOR_DEBOUNCE_US
    · rw [isrAcceptor_reject now s h, h0]
      rw [hl, hsub] at h
      simp only [COIN_ACCEPTOR_DEBOUNCE_US] at h
      constructor
      · intro h2
        omega
      · intro h2
        omega
    · rw [(isrAcceptor_accept now s h).2.1, h0]
      rw [hl, hsub] at h
      simp only [COIN_ACCEPTOR_DEBOUNCE_US] at h
      constructor
      · intro _
        omega
      · intro _
        rfl
  refine ⟨key _ rfl rfl, ?_⟩
  have hs1 : s1.coinTotal = 0 ∧ s1.lastAcceptorUs = 0 := by
    simp only [onWrite, byteAt, CMD_START_SESSION, notifyCoinTotal] at hstart
    simp at hstart
    cases hcc : s0.coinChar <;> simp [hcc, emit] at hstart <;> subst hstart <;> simp
  exact key s1 hs1.1 hs1.2

/-- C10 (the code at the failing input): in a session whose last pulse came
shortly before the microsecond clock wraps, an edge at `micros() = 15000` is
one the debounce test accepts; after START_SESSION has cleared
`lastAcceptorUs` to 0 the same edge, now the first of the session, is
dropped and the total stays 0. The first edge 5 ms after controller start is
dropped likewise. -/
theorem first_edge_dropped_after_reset :
    counted 15000 lateState = true ∧
    onWrite 0 [0x01] lateState = some lateReset ∧
    counted 15000 lateReset = false ∧
    (isrAcceptor 15000 lateReset).coinTotal = 0 ∧
    counted 5000 (Ctlr.init true true true) = false := by
  decide

/-! ## The payout duration -/

theorem strict_eq {α : Type} (n : Nat) (f : Nat → α) : strict n f = f n := by
  cases n <;> rfl

theorem strictScaled_eq {α : Type} (x : Scaled) (f : Scaled → α) : strictScaled x f = f x := by
  cases x
  simp [strictScaled, strict_eq]

theorem bitLenAux_of_range (j : Nat) :
    ∀ n fuel : Nat, 2 ^ j ≤ n → n < 2 ^ (j + 1) → j < fuel → bitLenAux fuel n = j + 1 := by
  induction j with
  | zero =>
    intro n fuel h1 h2 hf
    obtain ⟨f, rfl⟩ : ∃ f, fuel = f + 1 := ⟨fuel - 1, by omega⟩
    have hn : n = 1 := by omega
    subst hn
    cases f <;> simp [bitLenAux]
  | succ k ih =>
    intro n fuel h1 h2 hf
    obtain ⟨f, rfl⟩ : ∃ f, fuel = f + 1 := ⟨fuel - 1, by omega⟩
    have hn : n ≠ 0 := by
      have := Nat.two_pow_pos (k + 1)
      omega
    have h3 : 2 ^ k ≤ n / 2 := by
      rw [Nat.le_div_iff_mul_le (by norm_num)]
      rw [pow_succ] at h1
      exact h1
    have h4 : n / 2 < 2 ^ (k + 1) := by
      rw [Nat.div_lt_iff_lt_mul (by norm_num)]
      rw [pow_succ] at h2
      exact h2
    simp [bitLenAux, hn, ih (n / 2) f h3 h4 (by omega)]

theorem bitLen_of_range (j n : Nat) (h1 : 2 ^ j ≤ n) (h2 : n < 2 ^ (j + 1)) :
    bitLen n = j + 1 :=
  bitLenAux_of_range j n n h1 h2 (lt_of_lt_of_le (Nat.lt_two_pow j) h1)

theorem bitLenHint_eq (h x : Nat) (hx : 0 < x) : bitLenHint h x = bitLen x := by
  unfold bitLenHint
  by_cases c1 : 2 ^ (h - 1) ≤ x ∧ x < 2 ^ h
  · have hh : h ≠ 0 := by
      rintro rfl
      simp at c1
      omega
    obtain ⟨k, rfl⟩ : ∃ k, h = k + 1 := ⟨h - 1, by omega⟩
    have e := bitLen_of_range k x (by simpa using c1.1) c1.2
    have t1 : Nat.ble (Nat.pow 2 (Nat.sub (k + 1) 1)) x = true := by
      rw [Nat.ble_eq]; exact c1.1
    have t2 : Nat.blt x (Nat.pow 2 (k + 1)) = true := by
      rw [Nat.blt_eq]; exact c1.2
    rw [t1, t2, e]
    rfl
  · have t1 : (Nat.ble (Nat.pow 2 (Nat.sub h 1)) x && Nat.blt x (Nat.pow 2 h)) = false := by
      rw [Bool.and_eq_false_iff]
      by_cases c : 2 ^ (h - 1) ≤ x
      · right
        have : ¬ x < 2 ^ h := fun hh => c1 ⟨c, hh⟩
        rw [← Bool.not_eq_true, Nat.blt_eq]
        exact this
      · left
        rw [← Bool.not_eq_true, Nat.ble_eq]
        exact c
    rw [t1]
    simp only [cond_false]
    by_cases c2 : 2 ^ h ≤ x ∧ x < 2 ^ (h + 1)
    · have e := bitLen_of_range h x c2.1 c2.2
      have t3 : Nat.ble (Nat.pow 2 h) x = true := by
        rw [Nat.ble_eq]; exact c2.1
      have t4 : Nat.blt x (Nat.pow 2 (Nat.succ h)) = true := by
        rw [Nat.blt_eq]; exact c2.2
      rw [t3, t4, e]
      rfl
    · have t2 : (Nat.ble (Nat.pow 2 h) x && Nat.blt x (Nat.pow 2 (Nat.succ h))) = false := by
        rw [Bool.and_eq_false_iff]
        by_cases c : 2 ^ h ≤ x
        · right
          have : ¬ x < 2 ^ (h + 1) := fun hh => c2 ⟨c, hh⟩
          rw [← Bool.not_eq_true, Nat.blt_eq]
          exact this
        · left
          rw [← Bool.not_eq_true, Nat.ble_eq]
          exact c
      rw [t2]
      rfl

theorem roundAtNat_eq (ln ld num den : Nat) :
    (roundAtNat ln ld num den).toF32 = f32RoundAt ln ld num den ∧
    ((roundAtNat ln ld num den).shl = 0 ∨ (roundAtNat ln ld num den).shr = 0) := by
  simp only [roundAtNat, strict_eq, Scaled.toF32, f32RoundAt]
  have hd1 : ((ln : Int) - (ld : Int)).toNat = ln - ld := by omega
  have hd2 : (-((ln : Int) - (ld : Int))).toNat = ld - ln := by omega
  rw [hd1, hd2]
  by_cases hbig : den * 2 ^ (ln - ld) ≤ num * 2 ^ (ld - ln)
  · have t : Nat.ble (Nat.mul den (Nat.pow 2 (Nat.sub ln ld)))
        (Nat.mul num (Nat.pow 2 (Nat.sub ld ln))) = true := by
      rw [Nat.ble_eq]; exact hbig
    rw [t, if_pos hbig]
    simp only [cond_true]
    have e1 : (-((ln : Int) - (ld : Int) - 23)).toNat = Nat.sub (Nat.add (Nat.add ld 0) 23) ln := by
      show _ = ld + 0 + 23 - ln
      omega
    have e2 : ((ln : Int) - (ld : Int) - 23).toNat = Nat.sub ln (Nat.add (Nat.add ld 0) 23) := by
      show _ = ln - (ld + 0 + 23)
      omega
    rw [e1, e2]
    refine ⟨?_, ?_⟩
    · congr 1
      · simp only [cond_eq_if, Bool.or_eq_true, Bool.and_eq_true, Nat.blt_eq, Nat.beq_eq]
        rfl
      · show ((ln - (ld + 0 + 23) : Nat) : Int) - ((ld + 0 + 23 - ln : Nat) : Int) = _
        omega
    · show ln - (ld + 0 + 23) = 0 ∨ ld + 0 + 23 - ln = 0
      omega
  · have t : Nat.ble (Nat.mul den (Nat.pow 2 (Nat.sub ln ld)))
        (Nat.mul num (Nat.pow 2 (Nat.sub ld ln))) = false := by
      rw [← Bool.not_eq_true, Nat.ble_eq]; exact hbig
    rw [t, if_neg hbig]
    simp only [cond_false]
    have e1 : (-((ln : Int) - (ld : Int) - 1 - 23)).toNat = Nat.sub (Nat.add (Nat.add ld 1) 23) ln := by
      show _ = ld + 1 + 23 - ln
      omega
    have e2 : ((ln : Int) - (ld : Int) - 1 - 23).toNat = Nat.sub ln (Nat.add (Nat.add ld 1) 23) := by
      show _ = ln - (ld + 1 + 23)
      omega
    rw [e1, e2]
    refine ⟨?_, ?_⟩
    · congr 1
      · simp only [cond_eq_if, Bool.or_eq_true, Bool.and_eq_true, Nat.blt_eq, Nat.beq_eq]
        rfl
      · show ((ln - (ld + 1 + 23) : Nat) : Int) - ((ld + 1 + 23 - ln : Nat) : Int) = _
        omega
    · show ln - (ld + 1 + 23) = 0 ∨ ld + 1 + 23 - ln = 0
      omega

theorem Scaled.num_den (x : Scaled) (h : x.shl = 0 ∨ x.shr = 0) :
    x.toF32.num = x.mant * 2 ^ x.shl ∧ x.toF32.den = 2 ^ x.shr := by
  have e1 : ((x.shl : Int) - (x.shr : Int)).toNat = x.shl := by omega
  have e2 : (-((x.shl : Int) - (x.shr : Int))).toNat = x.shr := by omega
  simp only [F32.num, F32.den, Scaled.toF32, e1, e2, and_self]

theorem roundHint_eq (hn hd num den : Nat) (hden : 0 < den) :
    (roundHint hn hd num den).toF32 = f32Round num den ∧
    ((roundHint hn hd num den).shl = 0 ∨ (roundHint hn hd num den).shr = 0) := by
  unfold roundHint f32Round
  by_cases h0 : num = 0
  · subst h0
    exact ⟨rfl, Or.inl rfl⟩
  · have t : Nat.beq num 0 = false := by
      rw [← Bool.not_eq_true, Nat.beq_eq]
      exact h0
    rw [t, if_neg h0]
    simp only [cond_false, strict_eq]
    rw [bitLenHint_eq hn num (Nat.pos_of_ne_zero h0), bitLenHint_eq hd den hden]
    exact roundAtNat_eq _ _ _ _

theorem dispense_rate_eq : DISPENSE_COINS_PER_SEC = (Scaled.mk 13631488 0 21).toF32 := by
  decide

theorem thousand_eq : F32.ofNat 1000 = (Scaled.mk 16384000 0 14).toF32 := by
  decide

/-- Conversion of a 24-bit count to `float` is exact. -/
theorem ofNat_exact (j n : Nat) (h1 : 2 ^ j ≤ n) (h2 : n < 2 ^ (j + 1)) (hj : j ≤ 23) :
    F32.ofNat n = (Scaled.mk (n * 2 ^ (23 - j)) 0 (23 - j)).toF32 := by
  have hn : n ≠ 0 := by
    have := Nat.two_pow_pos j
    omega
  have hb1 : bitLen 1 = 1 := by decide
  unfold F32.ofNat f32Round
  rw [if_neg hn, bitLen_of_range j n h1 h2, hb1, ← (roundAtNat_eq (j + 1) 1 n 1).1]
  have t : Nat.ble (Nat.mul 1 (Nat.pow 2 (Nat.sub (j + 1) 1)))
      (Nat.mul n (Nat.pow 2 (Nat.sub 1 (j + 1)))) = true := by
    rw [Nat.ble_eq]
    show 1 * 2 ^ (j + 1 - 1) ≤ n * 2 ^ (1 - (j + 1))
    have e : 1 - (j + 1) = 0 := by omega
    rw [e]
    simpa using h1
  simp only [roundAtNat, strict_eq, t, cond_true]
  have e1 : Nat.sub (Nat.add (Nat.add 1 0) 23) (j + 1) = 23 - j := by
    show 1 + 0 + 23 - (j + 1) = 23 - j
    omega
  have e2 : Nat.sub (j + 1) (Nat.add (Nat.add 1 0) 23) = 0 := by
    show j + 1 - (1 + 0 + 23) = 0
    omega
  rw [e1, e2]
  have e3 : Nat.mul 1 (Nat.pow 2 0) = 1 := rfl
  rw [e3]
  have e4 : Nat.mod (Nat.mul n (Nat.pow 2 (23 - j))) 1 = 0 := Nat.mod_one _
  have e5 : Nat.div (Nat.mul n (Nat.pow 2 (23 - j))) 1 = n * 2 ^ (23 - j) := Nat.div_one _
  rw [e4, e5]
  rfl

theorem durationMsHint_eq (j n : Nat) (h1 : 2 ^ j ≤ n) (h2 : n < 2 ^ (j + 1)) (hj : j ≤ 23) :
    durationMsHint j n = durationMs n := by
  unfold durationMs F32.div F32.mul F32.toUInt32
  rw [ofNat_exact j n h1 h2 hj, dispense_rate_eq, thousand_eq]
  obtain ⟨a1, a2⟩ := Scaled.num_den (Scaled.mk (n * 2 ^ (23 - j)) 0 (23 - j)) (Or.inl rfl)
  obtain ⟨b1, b2⟩ := Scaled.num_den (Scaled.mk 13631488 0 21) (Or.inl rfl)
  obtain ⟨k1, k2⟩ := Scaled.num_den (Scaled.mk 16384000 0 14) (Or.inl rfl)
  simp only [] at a1 a2 b1 b2 k1 k2
  rw [a1, a2, b1, b2, k1, k2]
  simp only [durationMsHint, strict_eq, strictScaled_eq]
  have hden1 : 0 < Nat.mul (Nat.pow 2 (Nat.sub 23 j)) 13631488 :=
    Nat.mul_pos (Nat.two_pow_pos _) (by norm_num)
  obtain ⟨s1, s2⟩ := roundHint_eq 45 (Nat.sub 47 j)
    (Nat.mul (Nat.mul n (Nat.pow 2 (Nat.sub 23 j))) 2097152)
    (Nat.mul (Nat.pow 2 (Nat.sub 23 j)) 13631488) hden1
  have en : n * 2 ^ (23 - j) * 2 ^ 0 * 2 ^ 21 =
      Nat.mul (Nat.mul n (Nat.pow 2 (Nat.sub 23 j))) 2097152 := by
    show _ = n * 2 ^ (23 - j) * 2097152
    norm_num
  have ed : 2 ^ (23 - j) * (13631488 * 2 ^ 0) = Nat.mul (Nat.pow 2 (Nat.sub 23 j)) 13631488 := by
    show _ = 2 ^ (23 - j) * 13631488
    norm_num
  rw [en, ed, ← s1]
  generalize roundHint 45 (Nat.sub 47 j) (Nat.mul (Nat.mul n (Nat.pow 2 (Nat.sub 23 j))) 2097152)
    (Nat.mul (Nat.pow 2 (Nat.sub 23 j)) 13631488) = sec at s2 ⊢
  obtain ⟨c1, c2⟩ := Scaled.num_den sec s2
  rw [c1, c2]
  have hden2 : 0 < Nat.mul (Nat.pow 2 sec.shr) 16384 :=
    Nat.mul_pos (Nat.two_pow_pos _) (by norm_num)
  obtain ⟨p1, p2⟩ := roundHint_eq 47 (Nat.add sec.shr 15)
    (Nat.mul (Nat.mul sec.mant (Nat.pow 2 sec.shl)) 16384000)
    (Nat.mul (Nat.pow 2 sec.shr) 16384) hden2
  have en2 : sec.mant * 2 ^ sec.shl * (16384000 * 2 ^ 0) =
      Nat.mul (Nat.mul sec.mant (Nat.pow 2 sec.shl)) 16384000 := by
    show _ = sec.mant * 2 ^ sec.shl * 16384000
    norm_num
  have ed2 : 2 ^ sec.shr * 2 ^ 14 = Nat.mul (Nat.pow 2 sec.shr) 16384 := by
    show _ = 2 ^ sec.shr * 16384
    norm_num
  rw [en2, ed2, ← p1]
  generalize roundHint 47 (Nat.add sec.shr 15)
    (Nat.mul (Nat.mul sec.mant (Nat.pow 2 sec.shl)) 16384000)
    (Nat.mul (Nat.pow 2 sec.shr) 16384) = p at p2 ⊢
  obtain ⟨q1, q2⟩ := Scaled.num_den p p2
  rw [q1, q2]
  rfl

theorem allFrom_spec (f : Nat → Bool) (k : Nat) :
    ∀ lo : Nat, allFrom f k lo = true → ∀ n, lo ≤ n → n < lo + 2 ^ k → f n = true := by
  induction k with
  | zero =>
    intro lo h n h1 h2
    have e : n = lo := by
      simp at h2
      omega
    subst e
    exact h
  | succ k ih =>
    intro lo h n h1 h2
    have hs : allFrom f (k + 1) lo = (allFrom f k lo && allFrom f k (lo + 2 ^ k)) := rfl
    rw [hs, Bool.and_eq_true] at h
    by_cases c : n < lo + 2 ^ k
    · exact ih lo h.1 n h1 c
    · refine ih (lo + 2 ^ k) h.2 n (by omega) ?_
      rw [pow_succ] at h2
      omega

set_option maxHeartbeats 0 in
/-- Every count of at most 10 binary digits passes the duration check; one
kernel evaluation per digit count. -/
theorem blocks_ok : ∀ j : Nat, j < 10 → blockOk j = true := by
  intro j hj
  interval_cases j <;> decide!

set_option maxHeartbeats 0 in
/-- Every count from 1024 to 65535 passes the duration check; one kernel
evaluation per 1024 counts. -/
theorem chunks_ok : ∀ k : Nat, 1 ≤ k → k < 64 → chunkOk k = true := by
  intro k h1 h2
  interval_cases k <;> decide!

theorem hintJ_range : ∀ k : Nat, k < 64 → 1 ≤ k →
    2 ^ hintJ k ≤ 1024 * k ∧ 1024 * (k + 1) ≤ 2 ^ (hintJ k + 1) ∧ hintJ k ≤ 23 := by
  decide

theorem durationOk_spec (n d : Nat) (h : durationOk n d = true) :
    (n ≤ 13643 → d = n * 2000 / 13) ∧ n * 2000 / 13 ≤ d + 1 ∧ d ≤ n * 2000 / 13 + 1 := by
  unfold durationOk at h
  rw [Bool.and_eq_true, Bool.and_eq_true, Bool.or_eq_true, Nat.blt_eq, Nat.beq_eq, Nat.ble_eq,
    Nat.ble_eq] at h
  obtain ⟨h1, h2, h3⟩ := h
  refine ⟨?_, h2, h3⟩
  intro hn
  rcases h1 with h1 | h1
  · omega
  · exact h1

theorem durationMs_checked (n : Nat) (h1 : 1 ≤ n) (h2 : n ≤ 65535) :
    durationOk n (durationMs n) = true := by
  by_cases hsmall : n < 1024
  · have hn : n ≠ 0 := by omega
    have l1 : 2 ^ n.log2 ≤ n := Nat.log2_self_le hn
    have l2 : n < 2 ^ (n.log2 + 1) := Nat.lt_log2_self
    have hj : n.log2 < 10 := by
      have h3 : 2 ^ n.log2 < 2 ^ 10 := lt_of_le_of_lt l1 (by norm_num; omega)
      exact (Nat.pow_lt_pow_iff_right (by norm_num)).1 h3
    have h4 : n < 2 ^ n.log2 + 2 ^ n.log2 := by
      rw [pow_succ] at l2
      omega
    have h5 := allFrom_spec _ n.log2 (2 ^ n.log2) (blocks_ok n.log2 hj) n l1 h4
    simp only [strict_eq] at h5
    rw [durationMsHint_eq n.log2 n l1 l2 (by omega)] at h5
    exact h5
  · have hk1 : 1 ≤ n / 1024 := by omega
    have hk2 : n / 1024 < 64 := by omega
    obtain ⟨r1, r2, r3⟩ := hintJ_range (n / 1024) hk2 hk1
    have hc := chunks_ok (n / 1024) hk1 hk2
    unfold chunkOk at hc
    simp only [strict_eq] at hc
    have h5 := allFrom_spec _ 10 (Nat.mul 1024 (n / 1024)) hc n
      (by show 1024 * (n / 1024) ≤ n; omega)
      (by show n < 1024 * (n / 1024) + 2 ^ 10; omega)
    simp only [strict_eq] at h5
    rw [durationMsHint_eq (hintJ (n / 1024)) n (by omega) (by omega) r3] at h5
    exact h5

/-! ## C3: the dispense duration -/

/-- C3 (as stated, refuted): for one coin `handlePayout` computes 153 ms,
while the integer nearest to `2000 / 13` is 154 (`13 * 154` misses 2000 by 2,
`13 * 153` by 11). -/
theorem duration_round_counterexample :
    durationMs 1 = 153 ∧ nearestMs 1 = 154 ∧
    13 * 154 - 1 * 2000 < 1 * 2000 - 13 * 153 ∧ durationMs 1 ≠ nearestMs 1 := by
  decide

/-- C3 (amended): for every count `1 ≤ n ≤ 65535` the relay is held for
`durationMs n` rounds of `delay(1)`, where `durationMs n` is the
single-precision value `((float)n / 6.5f) * 1000.0f` truncated toward zero,
not rounded to nearest: it equals `⌊n * 2000 / 13⌋` for every `n ≤ 13643` and
differs from `⌊n * 2000 / 13⌋` by at most 1 for every `n`; for `n = 10` it is
1538 ms. -/
theorem duration_truncates (n : Nat) (h1 : 1 ≤ n) (h2 : n ≤ 65535) :
    (∀ (fuel : Nat) (s : Ctlr), durationMs n < fuel →
      handlePayout fuel n s =
        some (notifyPayoutDone n (relayOff (hold (durationMs n) (relayOn s))))) ∧
    durationMs n =
      F32.toUInt32 (F32.mul (F32.div (F32.ofNat n) DISPENSE_COINS_PER_SEC) (F32.ofNat 1000)) ∧
    (n ≤ 13643 → durationMs n = n * 2000 / 13) ∧
    n * 2000 / 13 ≤ durationMs n + 1 ∧ durationMs n ≤ n * 2000 / 13 + 1 ∧
    durationMs 10 = 1538 := by
  obtain ⟨c1, c2, c3⟩ := durationOk_spec n (durationMs n) (durationMs_checked n h1 h2)
  refine ⟨?_, rfl, c1, c2, c3, by decide⟩
  intro fuel s hfuel
  exact handlePayout_run fuel n s (by omega) hfuel

/-- Witness for C3: the scenario count `n = 10`. -/
theorem duration_truncates_witness :
    (∀ (fuel : Nat) (s : Ctlr), durationMs 10 < fuel →
      handlePayout fuel 10 s =
        some (notifyPayoutDone 10 (relayOff (hold (durationMs 10) (relayOn s))))) ∧
    durationMs 10 =
      F32.toUInt32 (F32.mul (F32.div (F32.ofNat 10) DISPENSE_COINS_PER_SEC) (F32.ofNat 1000)) ∧
    (10 ≤ 13643 → durationMs 10 = 10 * 2000 / 13) ∧
    10 * 2000 / 13 ≤ durationMs 10 + 1 ∧ durationMs 10 ≤ 10 * 2000 / 13 + 1 ∧
    durationMs 10 = 1538 :=
  duration_truncates 10 (by decide) (by decide)

/-! ## C11: the debounce scenario -/

/-- C11 (the code at the failing input): from the initial state the edge at
`t = 0` is not counted, so of the edges at 0, 5, 30 and 60 ms only those at 30
and 60 ms count and the total is 2, not 3. On a clock that reads 50 ms at the
first edge the same four edges give what the scenario says: the first, third
and fourth are counted and the total is 3. -/
theorem scenario_drops_first_edge :
    counted 0 (Ctlr.init true true true) = false ∧
    countedEdges scenarioEdges (Ctlr.init true true true) = [30000, 60000] ∧
    (feedEdges scenarioEdges (Ctlr.init true true true)).coinTotal = 2 ∧
    (feedEdges scenarioEdges (Ctlr.init true true true)).coinTotal ≠ 3 ∧
    countedEdges shiftedEdges (Ctlr.init true true true) = [50000, 80000, 110000] ∧
    (feedEdges shiftedEdges (Ctlr.init true true true)).coinTotal = 3 := by
  decide

/-- How the code treats the scenario edges from any state with `coinTotal = 0`
and `lastAcceptorUs = 0`: the edges at 0 and 5 ms are dropped, those at 30 and
60 ms are counted. -/
theorem scenario_total (s : Ctlr) (h0 : s.coinTotal = 0) (hl : s.lastAcceptorUs = 0) :
    counted 0 s = false ∧ counted 5000 (feedEdges [0] s) = false ∧
    countedEdges scenarioEdges s = [30000, 60000] ∧
    (feedEdges scenarioEdges s).coinTotal = 2 := by
  have e0 : sub32 0 s.lastAcceptorUs < COIN_ACCEPTOR_DEBOUNCE_US := by rw [hl]; decide
  have e1 : sub32 5000 s.lastAcceptorUs < COIN_ACCEPTOR_DEBOUNCE_US := by rw [hl]; decide
  have e2 : ¬ sub32 30000 s.lastAcceptorUs < COIN_ACCEPTOR_DEBOUNCE_US := by rw [hl]; decide
  have r0 := isrAcceptor_reject 0 s e0
  have r1 := isrAcceptor_reject 5000 s e1
  obtain ⟨l2, t2, -⟩ := isrAcceptor_accept 30000 s e2
  have e3 : ¬ sub32 60000 (isrAcceptor 30000 s).lastAcceptorUs < COIN_ACCEPTOR_DEBOUNCE_US := by
    rw [l2]; decide
  obtain ⟨-, t3, -⟩ := isrAcceptor_accept 60000 (isrAcceptor 30000 s) e3
  have c0 : counted 0 s = false := by
    rw [← Bool.not_eq_true, counted_iff]
    exact fun h => h e0
  have c1 : counted 5000 s = false := by
    rw [← Bool.not_eq_true, counted_iff]
    exact fun h => h e1
  have c2 : counted 30000 s = true := (counted_iff 30000 s).2 e2
  have c3 : counted 60000 (isrAcceptor 30000 s) = true := (counted_iff _ _).2 e3
  refine ⟨c0, ?_, ?_, ?_⟩
  · simp only [feedEdges, r0, c1]
  · simp only [scenarioEdges, countedEdges, r0, r1, c0, c1, c2, c3, if_true, Bool.false_eq_true,
      if_false]
  · simp only [scenarioEdges, feedEdges, r0, r1, t3, t2, h0]
    decide

/-! ## Frame facts for the command branches -/

theorem debugPrinter_eq (s : Ctlr) :
    debugPrinter s = { s with nowMs := (debugPrinter s).nowMs, out := s.out ++ debugTrace } := by
  simp [debugPrinter, baudTest, delay, emit, debugTrace, Ctlr.init, PRINTER_UART_BAUD]

theorem receiptLine_cons (c : Nat) (p : List Nat) :
    receiptLine (c :: p) = ((p.take 511).map (· % 256)).takeWhile (· ≠ 0) := rfl

theorem receiptLine_verbatim (c : Nat) (p : List Nat) (hb : ∀ b ∈ p, b < 256 ∧ b ≠ 0)
    (hlen : p.length ≤ 511) : receiptLine (c :: p) = p := by
  have h1 : p.take 511 = p := List.take_of_length_le hlen
  have h2 : p.map (· % 256) = p := by
    conv_rhs => rw [← List.map_id p]
    apply List.map_congr_left
    intro b hbm
    exact Nat.mod_eq_of_lt (hb b hbm).1
  rw [receiptLine_cons, h1, h2, List.takeWhile_eq_self_iff]
  intro b hbm
  simpa using (hb b hbm).2

theorem printReceipt_eq (c : Nat) (p : List Nat) (s : Ctlr) (hne : p ≠ []) :
    printReceipt (c :: p) s =
      { s with out := s.out ++ receiptTrace s.printerOk (receiptLine (c :: p)) } := by
  have hlen : ¬ (c :: p).length ≤ 1 := by
    cases p with
    | nil => exact absurd rfl hne
    | cons a l => simp
  unfold printReceipt
  rw [if_neg hlen]
  cases hp : s.printerOk <;> simp [emit, receiptTrace, hp]

theorem receiptTrace_facts (lib : Bool) (line : List Nat) :
    coinEvents (receiptTrace lib line) = [] ∧ statusEvents (receiptTrace lib line) = [] ∧
    relayWrites (receiptTrace lib line) = [] := by
  cases lib <;> simp [receiptTrace, coinEvents, statusEvents, relayWrites]

/-- C13 (as stated, refuted): of a payload of 512 bytes only the first 511
reach the printer, and of the payload `72, 0, 73` only the byte before the
zero. -/
theorem receipt_verbatim_counterexample :
    receiptLine (0x03 :: List.replicate 512 65) = List.replicate 511 65 ∧
    receiptLine (0x03 :: List.replicate 512 65) ≠ List.replicate 512 65 ∧
    receiptLine [0x03, 72, 0, 73] = [72] ∧
    onWrite 0 [0x03, 72, 0, 73] (Ctlr.init true true true) =
      some { Ctlr.init true true true with out := receiptTrace true [72] } := by
  decide!

/-- C13 (amended): a PRINT_RECEIPT frame with an empty payload prints
nothing. For a non-empty payload `p` the branch sends the header, the text
`line`, three newlines and a flush to the printer UART and, when the printer
library is available, submits the title, `line` and a feed to it, where
`line` is `p` cut to its first 511 bytes and ended before its first zero
byte; so `line` is exactly `p` when `p` has at most 511 bytes, none of them
zero. No coin notification, status event or relay write results, and
`coinTotal` and `lastAcceptorUs` are unchanged. -/
theorem print_receipt_line (fuel : Nat) (p : List Nat) (s : Ctlr) :
    onWrite fuel [0x03] s = some s ∧
    (p ≠ [] →
      onWrite fuel (0x03 :: p) s =
        some { s with out := s.out ++ receiptTrace s.printerOk (receiptLine (0x03 :: p)) } ∧
      receiptLine (0x03 :: p) = ((p.take 511).map (· % 256)).takeWhile (· ≠ 0) ∧
      ((∀ b ∈ p, b < 256 ∧ b ≠ 0) → p.length ≤ 511 → receiptLine (0x03 :: p) = p) ∧
      coinEvents (receiptTrace s.printerOk (receiptLine (0x03 :: p))) = [] ∧
      statusEvents (receiptTrace s.printerOk (receiptLine (0x03 :: p))) = [] ∧
      relayWrites (receiptTrace s.printerOk (receiptLine (0x03 :: p))) = []) := by
  constructor
  · simp [onWrite, byteAt, CMD_START_SESSION, CMD_PAYOUT, CMD_PRINT_RECEIPT, printReceipt]
  · intro hne
    obtain ⟨f1, f2, f3⟩ := receiptTrace_facts s.printerOk (receiptLine (0x03 :: p))
    refine ⟨?_, receiptLine_cons 0x03 p, receiptLine_verbatim 0x03 p, f1, f2, f3⟩
    rw [← printReceipt_eq 0x03 p s hne]
    simp [onWrite, byteAt, CMD_START_SESSION, CMD_PAYOUT, CMD_PRINT_RECEIPT]

/-- Witness for C13: the two-byte text `OK` reaches the printer unchanged. -/
theorem print_receipt_line_witness :
    onWrite 0 [0x03, 79, 75] (Ctlr.init true true true) =
      some { Ctlr.init true true true with
        out := (Ctlr.init true true true).out ++
          receiptTrace (Ctlr.init true true true).printerOk (receiptLine [0x03, 79, 75]) } ∧
    receiptLine [0x03, 79, 75] = [79, 75] :=
  ⟨((print_receipt_line 0 [79, 75] (Ctlr.init true true true)).2 (by decide)).1,
   ((print_receipt_line 0 [79, 75] (Ctlr.init true true true)).2 (by decide)).2.2.1
     (by decide) (by decide)⟩

/-! ## C14: the 16-bit total at 65535 -/

/-- C14 (the code at the failing input): with `coinTotal = 65535` an accepted
edge leaves `coinTotal = 0`, smaller than before, and the only effect is the
ordinary coin-total notification `[0x00, 0x00]`. -/
theorem total_wraps_silently :
    fullState.coinTotal = 65535 ∧
    isrAcceptor 20000 fullState =
      { fullState with lastAcceptorUs := 20000, coinTotal := 0, out := [.coinNotify [0, 0]] } ∧
    (isrAcceptor 20000 fullState).coinTotal < fullState.coinTotal := by
  decide

/-! ## C15: writers of the session total -/

theorem waitLoop_frame (startMs dur : Nat) :
    ∀ (fuel : Nat) (s s2 : Ctlr), waitLoop fuel startMs dur s = some s2 →
      s2.coinTotal = s.coinTotal ∧ s2.lastAcceptorUs = s.lastAcceptorUs := by
  intro fuel
  induction fuel with
  | zero =>
    intro s s2 h
    simp [waitLoop] at h
  | succ f ih =>
    intro s s2 h
    by_cases hc : sub32 (millis s) startMs < dur
    · simp only [waitLoop, hc, if_true] at h
      exact ih (delay 1 s) s2 h
    · simp only [waitLoop, hc, if_false, Option.some.injEq] at h
      subst h
      exact ⟨rfl, rfl⟩

theorem handlePayout_frame (fuel n : Nat) (s s1 : Ctlr) (h : handlePayout fuel n s = some s1) :
    s1.coinTotal = s.coinTotal ∧ s1.lastAcceptorUs = s.lastAcceptorUs := by
  unfold handlePayout at h
  by_cases hn : n = 0
  · simp only [hn, if_true, Option.some.injEq] at h
    subst h
    cases hs : s.statusChar <;> simp [notifyPayoutDone, hs, emit]
  · simp only [hn, if_false] at h
    cases hw : waitLoop fuel (millis (relayOn s)) (durationMs n) (relayOn s) with
    | none => simp [hw] at h
    | some s2 =>
      simp only [hw, Option.some.injEq] at h
      obtain ⟨w1, w2⟩ := waitLoop_frame _ _ fuel (relayOn s) s2 hw
      subst h
      cases hs : s2.statusChar <;>
        simp [notifyPayoutDone, relayOff, hs, emit, w1, w2, relayOn]

/-- The part of the single-writer discipline that the code keeps: a frame
whose first byte is not `0x01` (the empty frame included) and `handlePayout`
leave `coinTotal` and `lastAcceptorUs` as they are, a rejected edge changes
nothing, and an accepted edge below 65535 adds exactly 1. -/
theorem session_total_writers (fuel : Nat) (s s1 : Ctlr) :
    (∀ v : List Nat, byteAt v 0 ≠ 0x01 → onWrite fuel v s = some s1 →
      s1.coinTotal = s.coinTotal ∧ s1.lastAcceptorUs = s.lastAcceptorUs) ∧
    (∀ n : Nat, handlePayout fuel n s = some s1 →
      s1.coinTotal = s.coinTotal ∧ s1.lastAcceptorUs = s.lastAcceptorUs) ∧
    (∀ now : Nat, counted now s = false → isrAcceptor now s = s) ∧
    (∀ now : Nat, counted now s = true → s.coinTotal < 65535 →
      (isrAcceptor now s).coinTotal = s.coinTotal + 1) := by
  refine ⟨?_, fun n h => handlePayout_frame fuel n s s1 h, ?_, ?_⟩
  · intro v hv h
    unfold onWrite at h
    by_cases h0 : v.length < 1
    · simp only [h0, if_true, Option.some.injEq] at h
      subst h
      exact ⟨rfl, rfl⟩
    · simp only [h0, if_false, CMD_START_SESSION, hv] at h
      by_cases h2 : byteAt v 0 = CMD_PAYOUT
      · simp only [h2, if_true] at h
        by_cases h3 : v.length < 3
        · simp only [h3, if_true, Option.some.injEq] at h
          subst h
          exact ⟨rfl, rfl⟩
        · simp only [h3, if_false] at h
          exact handlePayout_frame fuel _ s s1 h
      · simp only [h2, if_false] at h
        by_cases h3 : byteAt v 0 = CMD_PRINT_RECEIPT
        · simp only [h3, if_true, Option.some.injEq] at h
          subst h
          unfold printReceipt
          by_cases hl : v.length ≤ 1
          · simp [hl]
          · cases hp : s.printerOk <;> simp [hl, emit, hp]
        · simp only [h3, if_false] at h
          by_cases h4 : byteAt v 0 = CMD_DEBUG_PRINTER
          · simp only [h4, if_true, Option.some.injEq] at h
            subst h
            rw [debugPrinter_eq]
            exact ⟨rfl, rfl⟩
          · simp only [h4, if_false, Option.some.injEq] at h
            subst h
            exact ⟨rfl, rfl⟩
  · intro now hc
    have hr : sub32 now s.lastAcceptorUs < COIN_ACCEPTOR_DEBOUNCE_US := by
      by_contra hn
      rw [(counted_iff now s).2 hn] at hc
      exact Bool.noConfusion hc
    exact isrAcceptor_reject now s hr
  · intro now hc hlt
    rw [(isrAcceptor_accept now s ((counted_iff now s).1 hc)).2.1]
    exact Nat.mod_eq_of_lt (by omega)

/-- C15 (the code at the failing input): with `coinTotal = 65535` an accepted
edge makes `isrAcceptor` set the total to 0, a change that is not `+1` and a
second path, besides START_SESSION, that zeroes the total. -/
theorem isr_zeroes_total :
    counted 1020000 { fullState with lastAcceptorUs := 1000000 } = true ∧
    (isrAcceptor 1020000 { fullState with lastAcceptorUs := 1000000 }).coinTotal = 0 ∧
    (isrAcceptor 1020000 { fullState with lastAcceptorUs := 1000000 }).coinTotal ≠
      ({ fullState with lastAcceptorUs := 1000000 } : Ctlr).coinTotal + 1 := by
  decide

/-! ## C16: the hold lasts exactly the computed duration -/

theorem hold_nowMs (i : Nat) (s : Ctlr) : millis (hold i s) = (s.nowMs + i) % 2 ^ 32 := by
  induction i generalizing s with
  | zero => simp [hold, millis]
  | succ k ih =>
    have h : hold (k + 1) s = hold k (delay 1 s) := by
      simp [hold, Function.iterate_succ_apply]
    rw [h, ih]
    simp only [delay, emit]
    omega

theorem hold_elapsed (i : Nat) (s : Ctlr) (hi : i < 2 ^ 32) :
    sub32 (millis (hold i s)) (millis s) = i := by
  rw [hold_nowMs]
  simp only [sub32, millis]
  omega

/-- With no more fuel than rounds still to wait, the loop does not exit. -/
theorem waitLoop_starves (startMs dur : Nat) (hdur : dur < 2 ^ 32) :
    ∀ (fuel j : Nat) (s : Ctlr), sub32 (millis s) startMs + j = dur → fuel ≤ j →
      waitLoop fuel startMs dur s = none := by
  intro fuel
  induction fuel with
  | zero =>
    intro j s _ _
    rfl
  | succ f ih =>
    intro j s h hf
    obtain ⟨k, rfl⟩ : ∃ k, j = k + 1 := ⟨j - 1, by omega⟩
    have hlt : sub32 (millis s) startMs < dur := by omega
    have hstep : sub32 (millis (delay 1 s)) startMs + k = dur := by
      rw [sub32_delay, Nat.mod_eq_of_lt (by omega)]
      omega
    simp only [waitLoop, hlt, if_true]
    exact ih k (delay 1 s) hstep (by omega)

/-- C16: for every count `n ≥ 1` and every clock value at the start, with
`delay(1)` advancing the millisecond clock by exactly 1: the wait loop of
`handlePayout` needs exactly `durationMs n` rounds (it has not exited with
fuel for fewer, it exits with fuel for more); after each of the first
`durationMs n` rounds but the last the elapsed time `millis() - startMs` is
still below `durationMs n`, and when `relayOff` runs it is exactly
`durationMs n`; between relay on and relay off lie exactly `durationMs n`
rounds of `delay(1)`; and whenever `handlePayout` returns, the relay is off. -/
theorem hold_exact_duration (n : Nat) (s : Ctlr) (hn1 : 1 ≤ n) :
    (∀ fuel : Nat, fuel ≤ durationMs n → handlePayout fuel n s = none) ∧
    (∀ fuel : Nat, durationMs n < fuel →
      handlePayout fuel n s =
        some (notifyPayoutDone n (relayOff (hold (durationMs n) (relayOn s))))) ∧
    (∀ i : Nat, i < durationMs n →
      sub32 (millis (hold i (relayOn s))) (millis (relayOn s)) = i) ∧
    sub32 (millis (hold (durationMs n) (relayOn s))) (millis (relayOn s)) = durationMs n ∧
    (relayOff (hold (durationMs n) (relayOn s))).out =
      s.out ++ [.relay true] ++ List.replicate (durationMs n) (.delay 1) ++ [.relay false] ∧
    (∀ (fuel : Nat) (s1 : Ctlr), handlePayout fuel n s = some s1 → s1.relayHigh = false) := by
  have hn : n ≠ 0 := by omega
  have hd := durationMs_lt n
  refine ⟨?_, fun fuel hf => handlePayout_run fuel n s hn hf, ?_, ?_, ?_, ?_⟩
  · intro fuel hf
    have hstart : sub32 (millis (relayOn s)) (millis (relayOn s)) + durationMs n =
        durationMs n := by
      rw [sub32_self]; omega
    have hw := waitLoop_starves (millis (relayOn s)) (durationMs n) hd fuel (durationMs n)
      (relayOn s) hstart hf
    simp only [handlePayout, hn, if_false, hw]
  · intro i hi
    exact hold_elapsed i (relayOn s) (by omega)
  · exact hold_elapsed (durationMs n) (relayOn s) hd
  · have h := hold_out (durationMs n) (relayOn s)
    have r : (relayOn s).out = s.out ++ [.relay true] := rfl
    rw [r] at h
    simp only [relayOff, emit, h]
  · intro fuel s1 h
    simp only [handlePayout, hn, if_false] at h
    cases hw : waitLoop fuel (millis (relayOn s)) (durationMs n) (relayOn s) with
    | none => simp [hw] at h
    | some s2 =>
      simp only [hw, Option.some.injEq] at h
      subst h
      cases hs : s2.statusChar <;> simp [notifyPayoutDone, relayOff, hs, emit]

/-- Witness for C16: a payout of one coin started just before the 32-bit
millisecond clock wraps. -/
theorem hold_exact_duration_witness :
    (∀ fuel : Nat, fuel ≤ durationMs 1 →
      handlePayout fuel 1 { fullState with nowMs := 2 ^ 32 - 10 } = none) ∧
    (∀ fuel : Nat, durationMs 1 < fuel →
      handlePayout fuel 1 { fullState with nowMs := 2 ^ 32 - 10 } =
        some (notifyPayoutDone 1 (relayOff (hold (durationMs 1)
          (relayOn { fullState with nowMs := 2 ^ 32 - 10 }))))) ∧
    (∀ i : Nat, i < durationMs 1 →
      sub32 (millis (hold i (relayOn { fullState with nowMs := 2 ^ 32 - 10 })))
        (millis (relayOn { fullState with nowMs := 2 ^ 32 - 10 })) = i) ∧
    sub32 (millis (hold (durationMs 1) (relayOn { fullState with nowMs := 2 ^ 32 - 10 })))
      (millis (relayOn { fullState with nowMs := 2 ^ 32 - 10 })) = durationMs 1 ∧
    (relayOff (hold (durationMs 1) (relayOn { fullState with nowMs := 2 ^ 32 - 10 }))).out =
      ({ fullState with nowMs := 2 ^ 32 - 10 } : Ctlr).out ++ [.relay true] ++
        List.replicate (durationMs 1) (.delay 1) ++ [.relay false] ∧
    (∀ (fuel : Nat) (s1 : Ctlr),
      handlePayout fuel 1 { fullState with nowMs := 2 ^ 32 - 10 } = some s1 →
      s1.relayHigh = false) :=
  hold_exact_duration 1 { fullState with nowMs := 2 ^ 32 - 10 } (by decide)

/-! ## C17: debounce across the wrap of the microsecond clock -/

/-- C17: the decision of `isrAcceptor` is a function of the unsigned 32-bit
difference `now - lastAcceptorUs` alone; so for every stored timestamp and
every true elapsed time `d < 2 ^ 32`, the edge at `(last + d) mod 2 ^ 32` is
counted exactly when `d ≥ 20000`, also when `now < last` numerically: with
`last = 2 ^ 32 - 5000`, `now = 10000` is rejected and `now = 20000` accepted. -/
theorem debounce_across_wrap (s : Ctlr) (d : Nat) (hl : s.lastAcceptorUs < 2 ^ 32)
    (hd : d < 2 ^ 32) :
    sub32 ((s.lastAcceptorUs + d) % 2 ^ 32) s.lastAcceptorUs = d ∧
    (counted ((s.lastAcceptorUs + d) % 2 ^ 32) s = true ↔ 20000 ≤ d) ∧
    (∀ now : Nat, counted now s = decide (20000 ≤ sub32 now s.lastAcceptorUs)) ∧
    counted 10000 nearWrapState = false ∧ counted 20000 nearWrapState = true := by
  have h1 : sub32 ((s.lastAcceptorUs + d) % 2 ^ 32) s.lastAcceptorUs = d := by
    simp only [sub32]
    omega
  refine ⟨h1, ?_, ?_, by decide, by decide⟩
  · rw [counted_iff, h1]
    simp only [COIN_ACCEPTOR_DEBOUNCE_US]
    omega
  · intro now
    by_cases h : 20000 ≤ sub32 now s.lastAcceptorUs
    · rw [decide_eq_true h, counted_iff]
      simp only [COIN_ACCEPTOR_DEBOUNCE_US]
      omega
    · rw [decide_eq_false h, ← Bool.not_eq_true, counted_iff]
      simp only [COIN_ACCEPTOR_DEBOUNCE_US]
      omega

/-- Witness for C17: 25 ms of true elapsed time across the wrap. -/
theorem debounce_across_wrap_witness :
    sub32 ((nearWrapState.lastAcceptorUs + 25000) % 2 ^ 32) nearWrapState.lastAcceptorUs
      = 25000 ∧
    (counted ((nearWrapState.lastAcceptorUs + 25000) % 2 ^ 32) nearWrapState = true ↔
      20000 ≤ 25000) ∧
    (∀ now : Nat,
      counted now nearWrapState = decide (20000 ≤ sub32 now nearWrapState.lastAcceptorUs)) ∧
    counted 10000 nearWrapState = false ∧ counted 20000 nearWrapState = true :=
  debounce_across_wrap nearWrapState 25000 (by decide) (by decide)

end CoinCtlr
